import Mathlib

/-!
# Verification of the bevy_hierarchy child-builder engine

Shallow embedding of `crates/bevy_hierarchy/src/child_builder.rs`:
the hierarchy-consistency engine that maintains the bidirectional
parent/children relation over entities of an ECS world.

Entities are opaque comparable handles, modelled as `Nat`.  The world
record models exactly the slice of the `bevy_ecs` store contract that the
hierarchy code uses: which entities exist, each entity's optional
`Parent` component, each entity's optional `Children` component, the
`Events<HierarchyEvent>` resource (a list, plus a flag for whether the
resource is registered), and the id allocator used by `spawn`.

Operations that can panic in Rust (`world.entity_mut` on a missing
entity, the self-parenting checks, `SmallVec::insert_from_slice` with an
out-of-range index) are modelled as `Except (String × World) World`: the
`error` case carries the panic message together with the world as it
stood at the moment of the panic, so that "no partial mutation" claims
are expressible.
-/

/-- Entity handles: opaque, comparable, copyable identifiers. -/
abbrev Entity := Nat

/-- The `HierarchyEvent` notification record shape:
`ChildAdded`, `ChildMoved`, `ChildRemoved`. -/
inductive HierarchyEvent where
  | childAdded (child parent : Entity)
  | childMoved (child previousParent newParent : Entity)
  | childRemoved (child parent : Entity)
deriving DecidableEq, Repr

/-- Modelled from the spec: the external record store (`bevy_ecs`, not under
`src/`).  `alive` is the set of entities that exist; `parent` and `children`
give each entity's optional `Parent` / `Children` component; `events` is the
`Events<HierarchyEvent>` resource content and `hasEventSink` whether that
resource is registered; `next` is the id the next `spawn` allocates. -/
structure World where
  alive : List Entity
  next : Entity
  parent : Entity → Option Entity
  children : Entity → Option (List Entity)
  events : List HierarchyEvent
  hasEventSink : Bool

/-- Modelled from the spec: store write `attach`/`detach` of the `Parent`
component of entity `e` (`none` detaches it). -/
def World.setParentComp (w : World) (e : Entity) (v : Option Entity) : World :=
  { w with parent := fun x => if x = e then v else w.parent x }

/-- Modelled from the spec: store write `attach`/`detach` of the `Children`
component of entity `e` (`none` detaches it). -/
def World.setChildrenComp (w : World) (e : Entity) (v : Option (List Entity)) : World :=
  { w with children := fun x => if x = e then v else w.children x }

/-- Modelled from the spec: `World::spawn((bundle, Parent(p)))` — allocates a
fresh entity carrying the given optional `Parent` component (the bundle's
non-hierarchy data is outside the model) and returns it with the new world. -/
def World.spawnWithParent (w : World) (p : Option Entity) : World × Entity :=
  ({ w with alive := w.alive ++ [w.next]
            next := w.next + 1
            parent := fun x => if x = w.next then p else w.parent x },
   w.next)

/-- Panic message of `bevy_ecs`' `World::entity_mut` on a missing entity. -/
def noEntityMsg : String := "entity does not exist"

/-- Panic message of `SmallVec::insert_from_slice` on an out-of-range index. -/
def indexMsg : String := "index out of bounds"

/-- `push_events`: extends the `Events<HierarchyEvent>` resource if it is
registered; silently drops the events otherwise. -/
def push_events (w : World) (es : List HierarchyEvent) : World :=
  if w.hasEventSink then { w with events := w.events ++ es } else w

/-- `add_child_unchecked`: appends `child` to `parent`'s `Children`
(creating the component if absent), without a duplicate check.
`world.entity_mut(parent)` panics if `parent` does not exist. -/
def add_child_unchecked (w : World) (parent child : Entity) :
    Except (String × World) World :=
  if parent ∈ w.alive then
    match w.children parent with
    | some cs => .ok (w.setChildrenComp parent (some (cs ++ [child])))
    | none => .ok (w.setChildrenComp parent (some [child]))
  else .error (noEntityMsg, w)

/-- `update_parent`: sets `Parent` of `child` to `new_parent`, inserting the
component if absent, and returns the previous parent if there was one.
`world.entity_mut(child)` panics if `child` does not exist. -/
def update_parent (w : World) (child new_parent : Entity) :
    Except (String × World) (Option Entity × World) :=
  if child ∈ w.alive then
    match w.parent child with
    | some previous => .ok (some previous, w.setParentComp child (some new_parent))
    | none => .ok (none, w.setParentComp child (some new_parent))
  else .error (noEntityMsg, w)

/-- `remove_from_children`: removes `child` from `parent`'s `Children`,
deleting the component if it becomes empty.  Uses the tolerant
`world.get_entity_mut`: a missing `parent` (or missing component) is a
no-op, never a panic. -/
def remove_from_children (w : World) (parent child : Entity) : World :=
  if parent ∈ w.alive then
    match w.children parent with
    | some cs =>
      let cs' := cs.filter (fun x => x ≠ child)
      if cs'.isEmpty then w.setChildrenComp parent none
      else w.setChildrenComp parent (some cs')
    | none => w
  else w

/-- `update_old_parent`: updates `Parent` of `child`, removes `child` from the
previous parent's `Children`, and sends a `ChildMoved` or `ChildAdded` event.
Does nothing further if `child` was already a child of `parent`. -/
def update_old_parent (w : World) (child parent : Entity) :
    Except (String × World) World :=
  match update_parent w child parent with
  | .error e => .error e
  | .ok (some previous_parent, w1) =>
    if previous_parent = parent then .ok w1
    else
      let w2 := remove_from_children w1 previous_parent child
      .ok (push_events w2
        [.childMoved child previous_parent parent])
  | .ok (none, w1) => .ok (push_events w1 [.childAdded child parent])

/-- The `for &child in children` loop of `update_old_parents`, threading the
world and the accumulated event batch. -/
def update_old_parents_loop (parent : Entity) :
    World → List Entity → List HierarchyEvent →
      Except (String × World) (World × List HierarchyEvent)
  | w, [], events => .ok (w, events)
  | w, child :: rest, events =>
    match update_parent w child parent with
    | .error e => .error e
    | .ok (some previous, w1) =>
      if parent = previous then update_old_parents_loop parent w1 rest events
      else
        let w2 := remove_from_children w1 previous child
        update_old_parents_loop parent w2 rest
          (events ++ [.childMoved child previous parent])
    | .ok (none, w1) =>
      update_old_parents_loop parent w1 rest (events ++ [.childAdded child parent])

/-- `update_old_parents`: per-child `update_old_parent` semantics over a batch,
with the accumulated events pushed once at the end. -/
def update_old_parents (w : World) (parent : Entity) (children : List Entity) :
    Except (String × World) World :=
  match update_old_parents_loop parent w children [] with
  | .error e => .error e
  | .ok (w1, events) => .ok (push_events w1 events)

/-- The `for event in &events { world.entity_mut(child).remove::<Parent>() }`
loop shared by `remove_children` and `clear_children`: removes the `Parent`
component from each listed entity, panicking on a missing entity. -/
def remove_parent_components : World → List Entity → Except (String × World) World
  | w, [] => .ok w
  | w, child :: rest =>
    if child ∈ w.alive then
      remove_parent_components (w.setParentComp child none) rest
    else .error (noEntityMsg, w)

/-- The free function `remove_children(parent, children, world)`: collects a
`ChildRemoved` event for every requested child present in `parent`'s
`Children` (no component, or missing parent, means early return), removes the
`Parent` component of each of those, pushes the events, then filters the
requested children out of `parent`'s `Children`, deleting the component if it
becomes empty. -/
def remove_children (parent : Entity) (children : List Entity) (w : World) :
    Except (String × World) World :=
  match (if parent ∈ w.alive then w.children parent else none) with
  | some parent_children =>
    let events := (children.filter (fun c => c ∈ parent_children)).map
      (fun c => HierarchyEvent.childRemoved c parent)
    match remove_parent_components w
        (children.filter (fun c => c ∈ parent_children)) with
    | .error e => .error e
    | .ok w1 =>
      let w2 := push_events w1 events
      if parent ∈ w2.alive then
        match w2.children parent with
        | some pcs =>
          let pcs' := pcs.filter (fun c => c ∉ children)
          if pcs'.isEmpty then .ok (w2.setChildrenComp parent none)
          else .ok (w2.setChildrenComp parent (some pcs'))
        | none => .ok w2
      else .error (noEntityMsg, w2)
  | none => .ok w

/-- `EntityWorldMut::add_child`: panics on self-parenting, then
`update_old_parent` followed by the dedup-append into the parent's
`Children` (retain `≠ child`, push at the back). -/
def add_child (w : World) (parent child : Entity) :
    Except (String × World) World :=
  if parent ∈ w.alive then
    if child = parent then .error ("Cannot add entity as a child of itself.", w)
    else
      match update_old_parent w child parent with
      | .error e => .error e
      | .ok w1 =>
        match w1.children parent with
        | some cs =>
          .ok (w1.setChildrenComp parent
            (some (cs.filter (fun v => v ≠ child) ++ [child])))
        | none => .ok (w1.setChildrenComp parent (some [child]))
  else .error (noEntityMsg, w)

/-- `EntityWorldMut::add_children`: early-returns on empty input, panics if the
parent is among the children, then `update_old_parents` followed by the
dedup-append (retain `∉ children`, extend at the back). -/
def add_children (w : World) (parent : Entity) (children : List Entity) :
    Except (String × World) World :=
  if parent ∈ w.alive then
    if children.isEmpty then .ok w
    else if parent ∈ children then
      .error ("Cannot push entity as a child of itself.", w)
    else
      match update_old_parents w parent children with
      | .error e => .error e
      | .ok w1 =>
        match w1.children parent with
        | some cs =>
          .ok (w1.setChildrenComp parent
            (some (cs.filter (fun v => v ∉ children) ++ children)))
        | none => .ok (w1.setChildrenComp parent (some children))
  else .error (noEntityMsg, w)

/-- `EntityWorldMut::insert_children`: panics if the parent is among the
children, then `update_old_parents`, then dedup (retain `∉ children`) and
`insert_from_slice` at `index` — which panics when `index` exceeds the length
of the remaining list (with the retain already applied).  When the parent has
no `Children` component the incoming list is inserted as-is, ignoring the
index. -/
def insert_children (w : World) (parent : Entity) (index : Nat)
    (children : List Entity) : Except (String × World) World :=
  if parent ∈ w.alive then
    if parent ∈ children then
      .error ("Cannot insert entity as a child of itself.", w)
    else
      match update_old_parents w parent children with
      | .error e => .error e
      | .ok w1 =>
        match w1.children parent with
        | some cs =>
          let remaining := cs.filter (fun v => v ∉ children)
          let w2 := w1.setChildrenComp parent (some remaining)
          if index ≤ remaining.length then
            .ok (w2.setChildrenComp parent
              (some (remaining.take index ++ children ++ remaining.drop index)))
          else .error (indexMsg, w2)
        | none => .ok (w1.setChildrenComp parent (some children))
  else .error (noEntityMsg, w)

/-- `EntityWorldMut::remove_parent`: takes the `Parent` component; if present,
removes the child from that parent's `Children` and sends `ChildRemoved`. -/
def remove_parent (w : World) (child : Entity) : Except (String × World) World :=
  if child ∈ w.alive then
    match w.parent child with
    | some parent =>
      let w1 := (w.setParentComp child none)
      let w2 := remove_from_children w1 parent child
      .ok (push_events w2 [.childRemoved child parent])
    | none => .ok w
  else .error (noEntityMsg, w)

/-- `EntityWorldMut::clear_children`: takes the `Children` component; if
present, removes the `Parent` component from every listed child
(`world.entity_mut(child)` panics on a missing child).  No events. -/
def clear_children (w : World) (parent : Entity) : Except (String × World) World :=
  if parent ∈ w.alive then
    match w.children parent with
    | some cs => remove_parent_components (w.setChildrenComp parent none) cs
    | none => .ok w
  else .error (noEntityMsg, w)

/-- `EntityWorldMut::replace_children`: `clear_children` then `add_children`. -/
def replace_children (w : World) (parent : Entity) (children : List Entity) :
    Except (String × World) World :=
  match clear_children w parent with
  | .error e => .error e
  | .ok w1 => add_children w1 parent children

/-- `EntityWorldMut::set_parent`: delegates to
`world.entity_mut(parent).add_child(child)` (both `entity_mut` calls panic on
a missing entity). -/
def set_parent (w : World) (child parent : Entity) : Except (String × World) World :=
  if child ∈ w.alive then
    if parent ∈ w.alive then add_child w parent child
    else .error (noEntityMsg, w)
  else .error (noEntityMsg, w)

/-- `EntityWorldMut::with_child`: spawns the bundle with `Parent(parent)`
already attached, then dedup-appends the new entity to the parent's
`Children` (creating the component if absent).  Emits no event. -/
def with_child (w : World) (parent : Entity) : Except (String × World) World :=
  if parent ∈ w.alive then
    let (w1, child) := w.spawnWithParent (some parent)
    match w1.children parent with
    | some cs =>
      .ok (w1.setChildrenComp parent
        (some (cs.filter (fun v => v ≠ child) ++ [child])))
    | none => .ok (w1.setChildrenComp parent (some [child]))
  else .error (noEntityMsg, w)

/-- `WorldChildBuilder::spawn`: spawns the bundle with `Parent(parent)`
attached, `add_child_unchecked`s it into the parent's `Children`, and pushes
a `ChildAdded` event. -/
def WorldChildBuilder.spawn (w : World) (parent : Entity) :
    Except (String × World) World :=
  let (w1, child) := w.spawnWithParent (some parent)
  match add_child_unchecked w1 parent child with
  | .error e => .error e
  | .ok w2 => .ok (push_events w2 [.childAdded child parent])

/-- The public operation set of §4.4, as applied to an `EntityWorldMut`
(constructing the `EntityWorldMut` for the receiver panics when the receiver
entity does not exist — visible in the `remove_children` arm, whose free
function takes the world directly). -/
inductive Op where
  | add_child (parent child : Entity)
  | add_children (parent : Entity) (children : List Entity)
  | insert_children (parent : Entity) (index : Nat) (children : List Entity)
  | remove_children (parent : Entity) (children : List Entity)
  | replace_children (parent : Entity) (children : List Entity)
  | clear_children (parent : Entity)
  | set_parent (child parent : Entity)
  | remove_parent (child : Entity)

/-- Dispatch a public operation against the world. -/
def applyOp (w : World) : Op → Except (String × World) World
  | .add_child p c => add_child w p c
  | .add_children p cs => add_children w p cs
  | .insert_children p i cs => insert_children w p i cs
  | .remove_children p cs =>
    if p ∈ w.alive then remove_children p cs w else .error (noEntityMsg, w)
  | .replace_children p cs => replace_children w p cs
  | .clear_children p => clear_children w p
  | .set_parent c p => set_parent w c p
  | .remove_parent c => remove_parent w c

/-- The children list of `e`, reading an absent component as empty. -/
def childrenOf (w : World) (e : Entity) : List Entity :=
  (w.children e).getD []

/-- Package a list as an optional `Children` component value: absent when
empty (the invariant's canonical form). -/
def listOpt (l : List Entity) : Option (List Entity) :=
  if l.isEmpty then none else some l

/-- The hierarchy invariant: (1) bidirectional agreement — `C` appears in
`P`'s children list iff `P` is `C`'s parent link; (2) a present `Children`
component is never empty; (3) a missing entity carries no components. -/
def HierInv (w : World) : Prop :=
  (∀ P C, C ∈ childrenOf w P ↔ w.parent C = some P) ∧
  (∀ P, w.children P ≠ some []) ∧
  (∀ e, e ∉ w.alive → w.parent e = none ∧ w.children e = none)

/-- Project the world out of an operation result, whether it completed or
panicked (the default is unused: both constructors carry a world). -/
def resWorld : Except (String × World) World → World
  | .ok w => w
  | .error (_, w) => w

/-- `true` iff the operation completed without panicking. -/
def isOkE : Except (String × World) World → Bool
  | .ok _ => true
  | .error _ => false

/-! ## Projection lemmas for the store primitives -/

@[simp] theorem setParentComp_parent (w : World) (e : Entity) (v : Option Entity)
    (x : Entity) : (w.setParentComp e v).parent x = if x = e then v else w.parent x := rfl

@[simp] theorem setParentComp_children (w : World) (e : Entity) (v : Option Entity) :
    (w.setParentComp e v).children = w.children := rfl

@[simp] theorem setParentComp_alive (w : World) (e : Entity) (v : Option Entity) :
    (w.setParentComp e v).alive = w.alive := rfl

@[simp] theorem setParentComp_next (w : World) (e : Entity) (v : Option Entity) :
    (w.setParentComp e v).next = w.next := rfl

@[simp] theorem setParentComp_events (w : World) (e : Entity) (v : Option Entity) :
    (w.setParentComp e v).events = w.events := rfl

@[simp] theorem setParentComp_hasEventSink (w : World) (e : Entity) (v : Option Entity) :
    (w.setParentComp e v).hasEventSink = w.hasEventSink := rfl

@[simp] theorem setChildrenComp_children (w : World) (e : Entity)
    (v : Option (List Entity)) (x : Entity) :
    (w.setChildrenComp e v).children x = if x = e then v else w.children x := rfl

@[simp] theorem setChildrenComp_parent (w : World) (e : Entity) (v : Option (List Entity)) :
    (w.setChildrenComp e v).parent = w.parent := rfl

@[simp] theorem setChildrenComp_alive (w : World) (e : Entity) (v : Option (List Entity)) :
    (w.setChildrenComp e v).alive = w.alive := rfl

@[simp] theorem setChildrenComp_next (w : World) (e : Entity) (v : Option (List Entity)) :
    (w.setChildrenComp e v).next = w.next := rfl

@[simp] theorem setChildrenComp_events (w : World) (e : Entity) (v : Option (List Entity)) :
    (w.setChildrenComp e v).events = w.events := rfl

@[simp] theorem setChildrenComp_hasEventSink (w : World) (e : Entity)
    (v : Option (List Entity)) : (w.setChildrenComp e v).hasEventSink = w.hasEventSink := rfl

@[simp] theorem push_events_parent (w : World) (es : List HierarchyEvent) :
    (push_events w es).parent = w.parent := by
  unfold push_events; split <;> rfl

@[simp] theorem push_events_children (w : World) (es : List HierarchyEvent) :
    (push_events w es).children = w.children := by
  unfold push_events; split <;> rfl

@[simp] theorem push_events_alive (w : World) (es : List HierarchyEvent) :
    (push_events w es).alive = w.alive := by
  unfold push_events; split <;> rfl

@[simp] theorem push_events_next (w : World) (es : List HierarchyEvent) :
    (push_events w es).next = w.next := by
  unfold push_events; split <;> rfl

@[simp] theorem push_events_hasEventSink (w : World) (es : List HierarchyEvent) :
    (push_events w es).hasEventSink = w.hasEventSink := by
  unfold push_events; split <;> rfl

theorem push_events_events (w : World) (es : List HierarchyEvent) :
    (push_events w es).events =
      if w.hasEventSink = true then w.events ++ es else w.events := by
  unfold push_events; split <;> simp_all

theorem push_events_events_of_sink (w : World) (es : List HierarchyEvent)
    (h : w.hasEventSink = true) : (push_events w es).events = w.events ++ es := by
  rw [push_events_events, if_pos h]

@[simp] theorem push_events_nil_events (w : World) :
    (push_events w []).events = w.events := by
  rw [push_events_events]; split <;> simp

/-! ## listOpt and childrenOf -/

@[simp] theorem listOpt_nil : listOpt [] = none := rfl

theorem listOpt_of_ne_nil {l : List Entity} (h : l ≠ []) : listOpt l = some l := by
  unfold listOpt
  rw [if_neg (by simpa [List.isEmpty_iff] using h)]

theorem listOpt_ne_some_nil (l : List Entity) : listOpt l ≠ some [] := by
  unfold listOpt
  split
  · simp
  · rename_i h
    intro hc
    exact h (by simp [List.isEmpty_iff] at hc ⊢; exact hc)

theorem listOpt_getD (l : List Entity) : (listOpt l).getD [] = l := by
  unfold listOpt
  split
  · rename_i h; simp_all [List.isEmpty_iff]
  · rfl

theorem mem_listOpt_getD {x : Entity} {l : List Entity} :
    x ∈ (listOpt l).getD [] ↔ x ∈ l := by rw [listOpt_getD]

/-! ## Consequences of the hierarchy invariant -/

theorem HierInv.children_eq_listOpt {w : World} (h : HierInv w) (Q : Entity) :
    w.children Q = listOpt (childrenOf w Q) := by
  cases hch : w.children Q with
  | none => simp [childrenOf, hch]
  | some cs =>
    have hne : cs ≠ [] := by
      intro hnil
      exact h.2.1 Q (hnil ▸ hch)
    simp [childrenOf, hch, listOpt_of_ne_nil hne]

theorem HierInv.parent_alive {w : World} (h : HierInv w) {C Q : Entity}
    (hp : w.parent C = some Q) : Q ∈ w.alive := by
  by_contra hdead
  have hcq : C ∈ childrenOf w Q := (h.1 Q C).mpr hp
  have := (h.2.2 Q hdead).2
  simp [childrenOf, this] at hcq

theorem HierInv.not_mem_childrenOf {w : World} (h : HierInv w) {C Q : Entity}
    (hp : w.parent C ≠ some Q) : C ∉ childrenOf w Q := by
  intro hmem
  exact hp ((h.1 Q C).mp hmem)

/-! ## Characterization of the link primitives -/

theorem update_parent_ok {w w' : World} {c P : Entity} {prev : Option Entity}
    (h : update_parent w c P = .ok (prev, w')) :
    c ∈ w.alive ∧ prev = w.parent c ∧ w' = w.setParentComp c (some P) := by
  unfold update_parent at h
  split at h
  · rename_i hc
    refine ⟨hc, ?_⟩
    split at h <;>
      (rename_i heq;
       simp only [Except.ok.injEq, Prod.mk.injEq] at h;
       exact ⟨by rw [heq, h.1], h.2.symm⟩)
  · exact absurd h (by simp)

theorem update_parent_eq {w : World} {c : Entity} (P : Entity) (hc : c ∈ w.alive) :
    update_parent w c P = .ok (w.parent c, w.setParentComp c (some P)) := by
  unfold update_parent
  rw [if_pos hc]
  cases hp : w.parent c <;> simp [hp]

theorem update_parent_dead {w : World} {c : Entity} (P : Entity) (hc : c ∉ w.alive) :
    update_parent w c P = .error (noEntityMsg, w) := by
  unfold update_parent
  rw [if_neg hc]

@[simp] theorem remove_from_children_parent (w : World) (Q c : Entity) :
    (remove_from_children w Q c).parent = w.parent := by
  unfold remove_from_children
  dsimp only
  repeat' split
  all_goals rfl

@[simp] theorem remove_from_children_alive (w : World) (Q c : Entity) :
    (remove_from_children w Q c).alive = w.alive := by
  unfold remove_from_children
  dsimp only
  repeat' split
  all_goals rfl

@[simp] theorem remove_from_children_next (w : World) (Q c : Entity) :
    (remove_from_children w Q c).next = w.next := by
  unfold remove_from_children
  dsimp only
  repeat' split
  all_goals rfl

@[simp] theorem remove_from_children_events (w : World) (Q c : Entity) :
    (remove_from_children w Q c).events = w.events := by
  unfold remove_from_children
  dsimp only
  repeat' split
  all_goals rfl

@[simp] theorem remove_from_children_hasEventSink (w : World) (Q c : Entity) :
    (remove_from_children w Q c).hasEventSink = w.hasEventSink := by
  unfold remove_from_children
  dsimp only
  repeat' split
  all_goals rfl

theorem remove_from_children_children_other {w : World} {Q X : Entity} (c : Entity)
    (hx : X ≠ Q) : (remove_from_children w Q c).children X = w.children X := by
  unfold remove_from_children
  dsimp only
  repeat' split
  all_goals simp [hx]

theorem remove_from_children_children_self {w : World} {Q : Entity} (c : Entity)
    (hQ : Q ∈ w.alive) :
    (remove_from_children w Q c).children Q =
      listOpt ((childrenOf w Q).filter (fun x => x ≠ c)) := by
  unfold remove_from_children
  rw [if_pos hQ]
  cases hch : w.children Q with
  | none => simp [childrenOf, hch]
  | some cs =>
    simp only [childrenOf, hch, Option.getD_some]
    split
    · rename_i hemp
      rw [List.isEmpty_iff] at hemp
      rw [hemp]
      simp
    · rename_i hemp
      rw [List.isEmpty_iff] at hemp
      rw [listOpt_of_ne_nil hemp]
      simp

theorem remove_from_children_dead {w : World} {Q : Entity} (c : Entity)
    (hQ : Q ∉ w.alive) : remove_from_children w Q c = w := by
  unfold remove_from_children
  rw [if_neg hQ]

/-! ## Filter helpers -/

theorem filter_ne_of_not_mem {l : List Entity} {c : Entity} (h : c ∉ l) :
    l.filter (fun x => x ≠ c) = l := by
  apply List.filter_eq_self.mpr
  intro a ha
  simp only [decide_eq_true_eq]
  intro hac
  subst hac
  exact h ha

theorem filter_not_mem_nil_pred (l : List Entity) :
    l.filter (fun x => x ∉ ([] : List Entity)) = l := by
  apply List.filter_eq_self.mpr
  intro a _
  simp

theorem filter_snoc_split (l done : List Entity) (c : Entity) :
    l.filter (fun x => x ∉ done ++ [c]) =
      (l.filter (fun x => x ∉ done)).filter (fun x => x ≠ c) := by
  rw [List.filter_filter]
  apply List.filter_congr
  intro x _
  by_cases h1 : x ∈ done <;> by_cases h2 : x = c <;>
    simp [h1, h2, List.mem_append]

theorem filter_done_snoc {l done : List Entity} {c : Entity}
    (h : c ∈ done ∨ c ∉ l) :
    l.filter (fun x => x ∉ done) = l.filter (fun x => x ∉ done ++ [c]) := by
  apply List.filter_congr
  intro x hx
  rw [decide_eq_decide]
  simp only [List.mem_append, List.mem_singleton, not_or]
  constructor
  · intro hnd
    refine ⟨hnd, ?_⟩
    intro hxc
    subst hxc
    cases h with
    | inl hcd => exact hnd hcd
    | inr hcl => exact hcl hx
  · exact fun hx2 => hx2.1

/-! ## Characterization of update_old_parent -/

theorem update_old_parent_char {w w₂ : World} {C P : Entity}
    (hI : HierInv w) (h : update_old_parent w C P = .ok w₂) :
    C ∈ w.alive ∧ w₂.alive = w.alive ∧ w₂.next = w.next ∧
    w₂.hasEventSink = w.hasEventSink ∧
    (∀ x, w₂.parent x = if x = C then some P else w.parent x) ∧
    w₂.children P = w.children P ∧
    (∀ Q, Q ≠ P →
      w₂.children Q = listOpt ((childrenOf w Q).filter (fun x => x ≠ C))) := by
  unfold update_old_parent at h
  split at h
  · exact absurd h (by simp)
  · rename_i previous w1 heq
    obtain ⟨hC, hprev, hw1⟩ := update_parent_ok heq
    split at h
    · rename_i hpp
      simp only [Except.ok.injEq] at h
      subst h
      subst hw1
      refine ⟨hC, rfl, rfl, rfl, fun x => rfl, rfl, ?_⟩
      intro Q hQ
      have hpc : w.parent C = some P := by rw [← hprev, hpp]
      have hnm : C ∉ childrenOf w Q :=
        hI.not_mem_childrenOf (by rw [hpc]; simpa using Ne.symm hQ)
      simp only [setParentComp_children]
      rw [filter_ne_of_not_mem hnm, ← hI.children_eq_listOpt]
    · rename_i hpp
      simp only [Except.ok.injEq] at h
      subst h
      have hpc : w.parent C = some previous := hprev.symm
      have hpal : previous ∈ w.alive := hI.parent_alive hpc
      refine ⟨hC, by simp [hw1], by simp [hw1], by simp [hw1], ?_, ?_, ?_⟩
      · intro x
        simp [hw1]
      · have hne : P ≠ previous := Ne.symm hpp
        simp only [push_events_children]
        rw [remove_from_children_children_other C hne]
        simp [hw1]
      · intro Q hQ
        simp only [push_events_children]
        by_cases hQp : Q = previous
        · subst hQp
          rw [remove_from_children_children_self C (by simp [hw1, hpal])]
          have : childrenOf w1 Q = childrenOf w Q := by
            simp [childrenOf, hw1]
          rw [this]
        · rw [remove_from_children_children_other C hQp]
          have hnm : C ∉ childrenOf w Q :=
            hI.not_mem_childrenOf (by rw [hpc]; simpa using Ne.symm hQp)
          rw [hw1]
          simp only [setParentComp_children]
          rw [filter_ne_of_not_mem hnm, ← hI.children_eq_listOpt]
  · rename_i w1 heq
    obtain ⟨hC, hprev, hw1⟩ := update_parent_ok heq
    simp only [Except.ok.injEq] at h
    subst h
    have hpc : w.parent C = none := hprev.symm
    refine ⟨hC, by simp [hw1], by simp [hw1], by simp [hw1], ?_, ?_, ?_⟩
    · intro x
      simp [hw1]
    · simp [hw1]
    · intro Q hQ
      have hnm : C ∉ childrenOf w Q :=
        hI.not_mem_childrenOf (by rw [hpc]; simp)
      simp only [push_events_children]
      rw [hw1]
      simp only [setParentComp_children]
      rw [filter_ne_of_not_mem hnm, ← hI.children_eq_listOpt]

theorem childrenOf_of_children_eq {w : World} {Q : Entity} {l : List Entity}
    (h : w.children Q = listOpt l) : childrenOf w Q = l := by
  unfold childrenOf
  rw [h, listOpt_getD]

/-! ## Characterization of the update_old_parents loop -/

/-- Relation between the original world `w` and the intermediate world `w1`
reached after the `update_old_parents` loop has processed the prefix `done`
of its input: every processed child's parent link points at `P`, the new
parent's `Children` is untouched, and every other entity's `Children` has the
processed children filtered out (in canonical `listOpt` form). -/
def LoopState (w : World) (P : Entity) (done : List Entity) (w1 : World) : Prop :=
  w1.alive = w.alive ∧ w1.next = w.next ∧ w1.hasEventSink = w.hasEventSink ∧
  (∀ x ∈ done, x ∈ w.alive) ∧
  (∀ x, w1.parent x = if x ∈ done then some P else w.parent x) ∧
  w1.children P = w.children P ∧
  (∀ Q, Q ≠ P →
    w1.children Q = listOpt ((childrenOf w Q).filter (fun x => x ∉ done)))

theorem LoopState_init {w : World} {P : Entity} (hI : HierInv w) :
    LoopState w P [] w := by
  refine ⟨rfl, rfl, rfl, by simp, by simp, rfl, ?_⟩
  intro Q _
  rw [filter_not_mem_nil_pred, ← hI.children_eq_listOpt]

theorem update_old_parents_loop_char {w : World} {P : Entity} (hI : HierInv w)
    (rest : List Entity) :
    ∀ (w1 : World) (acc : List HierarchyEvent) (done : List Entity)
      (w2 : World) (es : List HierarchyEvent),
      LoopState w P done w1 →
      update_old_parents_loop P w1 rest acc = .ok (w2, es) →
      LoopState w P (done ++ rest) w2 := by
  induction rest with
  | nil =>
    intro w1 acc done w2 es hL h
    simp only [update_old_parents_loop, Except.ok.injEq, Prod.mk.injEq] at h
    rw [List.append_nil]
    exact h.1 ▸ hL
  | cons c rest ih =>
    intro w1 acc done w2 es hL h
    obtain ⟨hal, hnx, hsk, hda, hpar, hchP, hchQ⟩ := hL
    have hrw : done ++ c :: rest = (done ++ [c]) ++ rest := by simp
    rw [hrw]
    simp only [update_old_parents_loop] at h
    split at h
    · exact absurd h (by simp)
    · rename_i previous w1' heq
      obtain ⟨hC, hprev, hw1'⟩ := update_parent_ok heq
      have hCw : c ∈ w.alive := hal ▸ hC
      split at h
      · -- previous parent is already P: continue
        rename_i hpp
        refine ih w1' acc (done ++ [c]) w2 es ?_ h
        have hcdP : c ∈ done ∨ w.parent c = some P := by
          by_cases hcd : c ∈ done
          · exact Or.inl hcd
          · right
            have := hpar c
            rw [if_neg hcd] at this
            rw [← this, ← hprev, hpp]
        refine ⟨by simp [hw1', hal], by simp [hw1', hnx], by simp [hw1', hsk],
          ?_, ?_, by simp [hw1', hchP], ?_⟩
        · intro x hx
          rcases List.mem_append.mp hx with hx | hx
          · exact hda x hx
          · rw [List.mem_singleton] at hx
            subst hx
            exact hCw
        · intro x
          subst hw1'
          simp only [setParentComp_parent]
          by_cases hxc : x = c
          · subst hxc
            simp
          · rw [if_neg hxc, hpar x]
            by_cases hxd : x ∈ done
            · rw [if_pos hxd, if_pos (by simp [hxd])]
            · rw [if_neg hxd, if_neg (by simp [List.mem_append, hxd, hxc])]
        · intro Q hQ
          subst hw1'
          simp only [setParentComp_children]
          rw [hchQ Q hQ]
          congr 1
          apply filter_done_snoc
          cases hcdP with
          | inl hcd => exact Or.inl hcd
          | inr hcp =>
            right
            exact hI.not_mem_childrenOf (by rw [hcp]; simpa using Ne.symm hQ)
      · -- genuine move away from `previous`
        rename_i hpp
        have hcd : c ∉ done := by
          intro hcd
          have := hpar c
          rw [if_pos hcd] at this
          rw [← hprev] at this
          exact hpp (by injection this with h2; rw [h2])
        have hwpc : w.parent c = some previous := by
          have := hpar c
          rw [if_neg hcd] at this
          rw [← this, ← hprev]
        have hpal : previous ∈ w.alive := hI.parent_alive hwpc
        refine ih _ _ (done ++ [c]) w2 es ?_ h
        have hPprev : P ≠ previous := hpp
        refine ⟨by simp [hw1', hal], by simp [hw1', hnx], by simp [hw1', hsk],
          ?_, ?_, ?_, ?_⟩
        · intro x hx
          rcases List.mem_append.mp hx with hx | hx
          · exact hda x hx
          · rw [List.mem_singleton] at hx
            subst hx
            exact hCw
        · intro x
          simp only [remove_from_children_parent]
          subst hw1'
          simp only [setParentComp_parent]
          by_cases hxc : x = c
          · subst hxc
            simp
          · rw [if_neg hxc, hpar x]
            by_cases hxd : x ∈ done
            · rw [if_pos hxd, if_pos (by simp [hxd])]
            · rw [if_neg hxd, if_neg (by simp [List.mem_append, hxd, hxc])]
        · rw [remove_from_children_children_other c hPprev]
          simp [hw1', hchP]
        · intro Q hQ
          by_cases hQp : Q = previous
          · subst hQp
            rw [remove_from_children_children_self c
              (by simp [hw1', hal, hpal])]
            have hc1 : childrenOf w1' Q = (childrenOf w Q).filter (fun x => x ∉ done) := by
              subst hw1'
              exact childrenOf_of_children_eq (hchQ Q hQ)
            rw [hc1, ← filter_snoc_split]
          · rw [remove_from_children_children_other c hQp]
            subst hw1'
            simp only [setParentComp_children]
            rw [hchQ Q hQ]
            congr 1
            apply filter_done_snoc
            right
            exact hI.not_mem_childrenOf
              (by rw [hwpc]; simpa using fun he => hQp he.symm)
    · rename_i w1' heq
      obtain ⟨hC, hprev, hw1'⟩ := update_parent_ok heq
      have hCw : c ∈ w.alive := hal ▸ hC
      have hcd : c ∉ done := by
        intro hcd
        have := hpar c
        rw [if_pos hcd] at this
        rw [← hprev] at this
        exact Option.noConfusion this
      have hwpc : w.parent c = none := by
        have := hpar c
        rw [if_neg hcd] at this
        rw [← this, ← hprev]
      refine ih w1' _ (done ++ [c]) w2 es ?_ h
      refine ⟨by simp [hw1', hal], by simp [hw1', hnx], by simp [hw1', hsk],
        ?_, ?_, by simp [hw1', hchP], ?_⟩
      · intro x hx
        rcases List.mem_append.mp hx with hx | hx
        · exact hda x hx
        · rw [List.mem_singleton] at hx
          subst hx
          exact hCw
      · intro x
        subst hw1'
        simp only [setParentComp_parent]
        by_cases hxc : x = c
        · subst hxc
          simp
        · rw [if_neg hxc, hpar x]
          by_cases hxd : x ∈ done
          · rw [if_pos hxd, if_pos (by simp [hxd])]
          · rw [if_neg hxd, if_neg (by simp [List.mem_append, hxd, hxc])]
      · intro Q hQ
        subst hw1'
        simp only [setParentComp_children]
        rw [hchQ Q hQ]
        congr 1
        apply filter_done_snoc
        right
        exact hI.not_mem_childrenOf (by rw [hwpc]; simp)

theorem update_old_parents_char {w w₂ : World} {P : Entity} {L : List Entity}
    (hI : HierInv w) (h : update_old_parents w P L = .ok w₂) :
    LoopState w P L w₂ := by
  unfold update_old_parents at h
  split at h
  · exact absurd h (by simp)
  · rename_i w1 es heq
    simp only [Except.ok.injEq] at h
    subst h
    have hL := update_old_parents_loop_char hI L w [] [] w1 es
      (LoopState_init hI) heq
    rw [List.nil_append] at hL
    obtain ⟨hal, hnx, hsk, hda, hpar, hchP, hchQ⟩ := hL
    exact ⟨by simp [hal], by simp [hnx], by simp [hsk], hda,
      by intro x; rw [← hpar x]; simp,
      by rw [← hchP]; simp,
      by intro Q hQ; rw [← hchQ Q hQ]; simp⟩

theorem update_old_parents_loop_total {w : World} {P : Entity}
    (rest : List Entity) :
    ∀ (w1 : World) (acc : List HierarchyEvent), w1.alive = w.alive →
      (∀ c ∈ rest, c ∈ w.alive) →
      ∃ w2 es, update_old_parents_loop P w1 rest acc = .ok (w2, es) := by
  induction rest with
  | nil =>
    intro w1 acc _ _
    exact ⟨w1, acc, rfl⟩
  | cons c rest ih =>
    intro w1 acc hal hrest
    have hc : c ∈ w1.alive := by
      rw [hal]
      exact hrest c (by simp)
    have hrest' : ∀ x ∈ rest, x ∈ w.alive := fun x hx =>
      hrest x (List.mem_cons_of_mem c hx)
    simp only [update_old_parents_loop, update_parent_eq P hc]
    cases hp : w1.parent c with
    | some previous =>
      dsimp only
      by_cases hpp : P = previous
      · rw [if_pos hpp]
        exact ih (w1.setParentComp c (some P)) acc (by simp [hal]) hrest'
      · rw [if_neg hpp]
        exact ih _ _ (by simp [hal]) hrest'
    | none =>
      dsimp only
      exact ih _ _ (by simp [hal]) hrest'

theorem update_old_parents_total {w : World} {P : Entity} {L : List Entity}
    (hL : ∀ c ∈ L, c ∈ w.alive) :
    ∃ w₂, update_old_parents w P L = .ok w₂ := by
  obtain ⟨w2, es, h⟩ := update_old_parents_loop_total L w [] rfl hL
  exact ⟨push_events w2 es, by unfold update_old_parents; rw [h]⟩

/-! ## Generic invariant-preservation lemmas -/

/-- The invariant survives any world whose parent links and children lists
have the shape produced by an "add"-style operation: the incoming children
`L` all point at `P` and sit (exactly once as a set) in `P`'s new list, every
other entity's list has `L` filtered out. -/
theorem hierInv_of_add {w w' : World} {P : Entity} {L N : List Entity}
    (hI : HierInv w) (hP : P ∈ w.alive) (hLalive : ∀ c ∈ L, c ∈ w.alive)
    (halive : w'.alive = w.alive)
    (hpar : ∀ x, w'.parent x = if x ∈ L then some P else w.parent x)
    (hchP : w'.children P = some N)
    (hmem : ∀ x, x ∈ N ↔ x ∈ L ∨ (x ∈ childrenOf w P ∧ x ∉ L))
    (hne : N ≠ [])
    (hchQ : ∀ Q, Q ≠ P →
      w'.children Q = listOpt ((childrenOf w Q).filter (fun x => x ∉ L))) :
    HierInv w' := by
  refine ⟨?_, ?_, ?_⟩
  · intro X Y
    by_cases hX : X = P
    · rw [hX]
      have hcw : childrenOf w' P = N := by
        unfold childrenOf
        rw [hchP, Option.getD_some]
      rw [hcw, hpar Y, hmem Y]
      by_cases hY : Y ∈ L
      · simp [hY]
      · rw [if_neg hY]
        simp only [hY, false_or, not_false_iff, and_true]
        exact hI.1 P Y
    · have hcw : childrenOf w' X = (childrenOf w X).filter (fun x => x ∉ L) :=
        childrenOf_of_children_eq (hchQ X hX)
      rw [hcw, hpar Y]
      by_cases hY : Y ∈ L
      · rw [if_pos hY]
        apply iff_of_false
        · intro hm
          have h2 := (List.mem_filter.mp hm).2
          simp [hY] at h2
        · intro h
          exact hX (Option.some.inj h).symm
      · rw [if_neg hY]
        simp only [List.mem_filter, decide_eq_true_eq]
        rw [← hI.1 X Y]
        simp [hY]
  · intro Q
    by_cases hQ : Q = P
    · subst hQ
      rw [hchP]
      simp [hne]
    · rw [hchQ Q hQ]
      exact listOpt_ne_some_nil _
  · intro e he
    rw [halive] at he
    constructor
    · rw [hpar e, if_neg (fun hc => he (hLalive e hc))]
      exact (hI.2.2 e he).1
    · have heP : e ≠ P := fun h => he (h ▸ hP)
      rw [hchQ e heP]
      have : childrenOf w e = [] := by
        unfold childrenOf
        rw [(hI.2.2 e he).2]
        rfl
      rw [this]
      rfl

/-- The invariant survives any world whose parent links and children lists
have the shape produced by a "remove"-style operation: the removed set `S`
(a subset of one parent's children under the invariant) loses its parent
links and is filtered out of every children list. -/
theorem hierInv_of_remove {w w' : World} {S : List Entity}
    (hI : HierInv w)
    (halive : w'.alive = w.alive)
    (hpar : ∀ x, w'.parent x = if x ∈ S then none else w.parent x)
    (hch : ∀ Q, w'.children Q = listOpt ((childrenOf w Q).filter (fun x => x ∉ S))) :
    HierInv w' := by
  refine ⟨?_, ?_, ?_⟩
  · intro X Y
    have hcw : childrenOf w' X = (childrenOf w X).filter (fun x => x ∉ S) :=
      childrenOf_of_children_eq (hch X)
    rw [hcw, hpar Y]
    by_cases hY : Y ∈ S
    · rw [if_pos hY]
      simp only [List.mem_filter, hY, decide_eq_true_eq]
      simp
    · rw [if_neg hY]
      simp only [List.mem_filter, decide_eq_true_eq]
      rw [← hI.1 X Y]
      simp [hY]
  · intro Q
    rw [hch Q]
    exact listOpt_ne_some_nil _
  · intro e he
    rw [halive] at he
    constructor
    · rw [hpar e]
      rw [(hI.2.2 e he).1]
      simp
    · rw [hch e]
      have : childrenOf w e = [] := by
        unfold childrenOf
        rw [(hI.2.2 e he).2]
        rfl
      rw [this]
      rfl

theorem filter_ne_eq_filter_not_mem_singleton (l : List Entity) (c : Entity) :
    l.filter (fun x => x ≠ c) = l.filter (fun x => x ∉ ([c] : List Entity)) := by
  apply List.filter_congr
  intro x _
  rw [decide_eq_decide]
  simp

/-! ## Invariant preservation, operation by operation -/

theorem add_child_ok_inv {w w' : World} {P C : Entity}
    (h : add_child w P C = .ok w') :
    P ∈ w.alive ∧ C ≠ P ∧ ∃ w₂, update_old_parent w C P = .ok w₂ ∧
      w' = w₂.setChildrenComp P
        (some ((childrenOf w₂ P).filter (fun v => v ≠ C) ++ [C])) := by
  unfold add_child at h
  split at h
  · rename_i hP
    split at h
    · exact absurd h (by simp)
    · rename_i hCP
      split at h
      · exact absurd h (by simp)
      · rename_i w₂ heq
        refine ⟨hP, hCP, w₂, heq, ?_⟩
        split at h
        · rename_i cs hcs
          simp only [Except.ok.injEq] at h
          subst h
          unfold childrenOf
          rw [hcs]
          rfl
        · rename_i hcs
          simp only [Except.ok.injEq] at h
          subst h
          unfold childrenOf
          rw [hcs]
          rfl
  · exact absurd h (by simp)

theorem hierInv_add_child {w w' : World} {P C : Entity} (hI : HierInv w)
    (h : add_child w P C = .ok w') : HierInv w' := by
  obtain ⟨hP, _, w₂, huop, hw'⟩ := add_child_ok_inv h
  obtain ⟨hC, hal, _, _, hpar, hchP, hchQ⟩ := update_old_parent_char hI huop
  have hcc : childrenOf w₂ P = childrenOf w P := by
    unfold childrenOf
    rw [hchP]
  subst hw'
  refine hierInv_of_add (L := [C])
    (N := (childrenOf w₂ P).filter (fun v => v ≠ C) ++ [C])
    hI hP ?_ ?_ ?_ ?_ ?_ ?_ ?_
  · intro c hc
    rw [List.mem_singleton] at hc
    subst hc
    exact hC
  · simp [hal]
  · intro x
    simp only [setChildrenComp_parent]
    rw [hpar x]
    by_cases hxC : x = C <;> simp [hxC]
  · simp
  · intro x
    rw [hcc]
    simp only [List.mem_append, List.mem_filter, List.mem_singleton,
      decide_eq_true_eq]
    exact or_comm
  · simp
  · intro Q hQ
    simp only [setChildrenComp_children]
    rw [if_neg hQ, hchQ Q hQ, filter_ne_eq_filter_not_mem_singleton]

theorem add_children_ok_inv {w w' : World} {P : Entity} {L : List Entity}
    (h : add_children w P L = .ok w') :
    (L = [] ∧ w' = w) ∨
    (P ∈ w.alive ∧ L ≠ [] ∧ P ∉ L ∧ ∃ w₂, update_old_parents w P L = .ok w₂ ∧
      w' = w₂.setChildrenComp P
        (some ((childrenOf w₂ P).filter (fun v => v ∉ L) ++ L))) := by
  unfold add_children at h
  split at h
  · rename_i hP
    split at h
    · rename_i hemp
      left
      simp only [Except.ok.injEq] at h
      exact ⟨List.isEmpty_iff.mp hemp, h.symm⟩
    · rename_i hemp
      split at h
      · exact absurd h (by simp)
      · rename_i hPL
        split at h
        · exact absurd h (by simp)
        · rename_i w₂ heq
          right
          refine ⟨hP, fun hnil => hemp (by simp [hnil]), hPL, w₂, heq, ?_⟩
          split at h
          · rename_i cs hcs
            simp only [Except.ok.injEq] at h
            subst h
            unfold childrenOf
            rw [hcs]
            rfl
          · rename_i hcs
            simp only [Except.ok.injEq] at h
            subst h
            unfold childrenOf
            rw [hcs]
            rfl
  · exact absurd h (by simp)

theorem hierInv_add_children {w w' : World} {P : Entity} {L : List Entity}
    (hI : HierInv w) (h : add_children w P L = .ok w') : HierInv w' := by
  rcases add_children_ok_inv h with ⟨_, hw'⟩ | ⟨hP, hne, _, w₂, huop, hw'⟩
  · subst hw'
    exact hI
  · obtain ⟨hal, _, _, hda, hpar, hchP, hchQ⟩ := update_old_parents_char hI huop
    have hcc : childrenOf w₂ P = childrenOf w P := by
      unfold childrenOf
      rw [hchP]
    subst hw'
    refine hierInv_of_add (L := L)
      (N := (childrenOf w₂ P).filter (fun v => v ∉ L) ++ L)
      hI hP hda ?_ ?_ ?_ ?_ ?_ ?_
    · simp [hal]
    · intro x
      simp only [setChildrenComp_parent]
      rw [hpar x]
    · simp
    · intro x
      rw [hcc]
      simp only [List.mem_append, List.mem_filter, decide_eq_true_eq]
      exact or_comm
    · intro hc
      exact hne (List.append_eq_nil.mp hc).2
    · intro Q hQ
      simp only [setChildrenComp_children]
      rw [if_neg hQ, hchQ Q hQ]

theorem insert_children_ok_inv {w w' : World} {P : Entity} {i : Nat}
    {L : List Entity} (h : insert_children w P i L = .ok w') :
    P ∈ w.alive ∧ P ∉ L ∧ ∃ w₂, update_old_parents w P L = .ok w₂ ∧
      ((∃ cs, w₂.children P = some cs ∧
          i ≤ (cs.filter (fun v => v ∉ L)).length ∧
          w' = (w₂.setChildrenComp P
              (some (cs.filter (fun v => v ∉ L)))).setChildrenComp P
            (some ((cs.filter (fun v => v ∉ L)).take i ++ L ++
              (cs.filter (fun v => v ∉ L)).drop i))) ∨
       (w₂.children P = none ∧ w' = w₂.setChildrenComp P (some L))) := by
  unfold insert_children at h
  split at h
  · rename_i hP
    split at h
    · exact absurd h (by simp)
    · rename_i hPL
      split at h
      · exact absurd h (by simp)
      · rename_i w₂ heq
        refine ⟨hP, hPL, w₂, heq, ?_⟩
        split at h
        · rename_i cs hcs
          dsimp only at h
          split at h
          · rename_i hle
            left
            simp only [Except.ok.injEq] at h
            exact ⟨cs, hcs, hle, h.symm⟩
          · exact absurd h (by simp)
        · rename_i hcs
          right
          simp only [Except.ok.injEq] at h
          exact ⟨hcs, h.symm⟩
  · exact absurd h (by simp)

theorem hierInv_insert_children {w w' : World} {P : Entity} {i : Nat}
    {L : List Entity} (hI : HierInv w)
    (hguard : L = [] → w.children P ≠ none)
    (h : insert_children w P i L = .ok w') : HierInv w' := by
  obtain ⟨hP, _, w₂, huop, hcase⟩ := insert_children_ok_inv h
  obtain ⟨hal, _, _, hda, hpar, hchP, hchQ⟩ := update_old_parents_char hI huop
  rcases hcase with ⟨cs, hcs, _, hw'⟩ | ⟨hcs, hw'⟩
  · have hwcs : w.children P = some cs := by rw [← hchP, hcs]
    have hcsne : cs ≠ [] := by
      intro hnil
      exact hI.2.1 P (hnil ▸ hwcs)
    have hccs : childrenOf w P = cs := by
      unfold childrenOf
      rw [hwcs]
      rfl
    set r := cs.filter (fun v => v ∉ L) with hr
    have hmemr : ∀ x, x ∈ r ↔ x ∈ cs ∧ x ∉ L := by
      intro x
      rw [hr, List.mem_filter, decide_eq_true_eq]
    have htd : ∀ x, (x ∈ r) ↔ (x ∈ r.take i ∨ x ∈ r.drop i) := by
      intro x
      conv_lhs => rw [← List.take_append_drop i r]
      exact List.mem_append
    subst hw'
    refine hierInv_of_add (L := L)
      (N := r.take i ++ L ++ r.drop i)
      hI hP hda ?_ ?_ ?_ ?_ ?_ ?_
    · simp [hal]
    · intro x
      simp only [setChildrenComp_parent]
      rw [hpar x]
    · simp
    · intro x
      rw [hccs]
      simp only [List.mem_append]
      by_cases hxL : x ∈ L
      · simp [hxL]
      · simp only [hxL, false_or, not_false_iff, and_true]
        constructor
        · intro hx
          rcases hx with (hx | hx) | hx
          · exact ((hmemr x).mp ((htd x).mpr (Or.inl hx))).1
          · exact hx.elim
          · exact ((hmemr x).mp ((htd x).mpr (Or.inr hx))).1
        · intro hx
          have hxr : x ∈ r := (hmemr x).mpr ⟨hx, hxL⟩
          rcases (htd x).mp hxr with hx2 | hx2
          · exact Or.inl (Or.inl hx2)
          · exact Or.inr hx2
    · intro hnil
      rw [List.append_eq_nil] at hnil
      obtain ⟨hnil1, hdrop⟩ := hnil
      rw [List.append_eq_nil] at hnil1
      obtain ⟨htake, hLnil⟩ := hnil1
      have hrnil : r = [] := by
        rw [← List.take_append_drop i r, htake, hdrop]
        rfl
      have : r = cs := by
        rw [hr, hLnil]
        apply List.filter_eq_self.mpr
        intro a _
        simp
      exact hcsne (by rw [← this, hrnil])
    · intro Q hQ
      simp only [setChildrenComp_children]
      rw [if_neg hQ, if_neg hQ, hchQ Q hQ]
  · have hwcs : w.children P = none := by rw [← hchP, hcs]
    have hLne : L ≠ [] := by
      intro hnil
      exact hguard hnil hwcs
    have hccs : childrenOf w P = [] := by
      unfold childrenOf
      rw [hwcs]
      rfl
    subst hw'
    refine hierInv_of_add (L := L) (N := L) hI hP hda ?_ ?_ ?_ ?_ hLne ?_
    · simp [hal]
    · intro x
      simp only [setChildrenComp_parent]
      rw [hpar x]
    · simp
    · intro x
      rw [hccs]
      simp
    · intro Q hQ
      simp only [setChildrenComp_children]
      rw [if_neg hQ, hchQ Q hQ]

theorem remove_parent_components_ok {S : List Entity} :
    ∀ {w w' : World}, remove_parent_components w S = .ok w' →
      (∀ c ∈ S, c ∈ w.alive) ∧
      w'.alive = w.alive ∧ w'.next = w.next ∧ w'.events = w.events ∧
      w'.hasEventSink = w.hasEventSink ∧ w'.children = w.children ∧
      (∀ x, w'.parent x = if x ∈ S then none else w.parent x) := by
  induction S with
  | nil =>
    intro w w' h
    simp only [remove_parent_components, Except.ok.injEq] at h
    subst h
    exact ⟨by simp, rfl, rfl, rfl, rfl, rfl, fun x => by simp⟩
  | cons c S ih =>
    intro w w' h
    simp only [remove_parent_components] at h
    split at h
    · rename_i hc
      obtain ⟨hS, hal, hnx, hev, hsk, hch, hpar⟩ := ih h
      refine ⟨?_, by simpa using hal, by simpa using hnx, by simpa using hev,
        by simpa using hsk, by simpa using hch, ?_⟩
      · intro x hx
        rcases List.mem_cons.mp hx with hx | hx
        · subst hx
          exact hc
        · simpa using hS x hx
      · intro x
        rw [hpar x]
        by_cases hxS : x ∈ S
        · rw [if_pos hxS, if_pos (List.mem_cons_of_mem c hxS)]
        · rw [if_neg hxS]
          simp only [setParentComp_parent]
          by_cases hxc : x = c
          · rw [if_pos hxc, if_pos (by rw [hxc]; exact List.mem_cons_self c S)]
          · rw [if_neg hxc, if_neg (by
              intro hmem
              rcases List.mem_cons.mp hmem with hx2 | hx2
              · exact hxc hx2
              · exact hxS hx2)]
    · exact absurd h (by simp)

theorem remove_parent_components_total {S : List Entity} :
    ∀ {w : World}, (∀ c ∈ S, c ∈ w.alive) →
      ∃ w', remove_parent_components w S = .ok w' := by
  induction S with
  | nil =>
    intro w _
    exact ⟨w, rfl⟩
  | cons c S ih =>
    intro w hS
    have hc : c ∈ w.alive := hS c (List.mem_cons_self c S)
    obtain ⟨w', hw'⟩ := ih (w := w.setParentComp c none)
      (fun x hx => by simpa using hS x (List.mem_cons_of_mem c hx))
    refine ⟨w', ?_⟩
    simp only [remove_parent_components]
    rw [if_pos hc]
    exact hw'

theorem remove_children_ok_inv {w w' : World} {P : Entity} {L : List Entity}
    (h : remove_children P L w = .ok w') :
    ((if P ∈ w.alive then w.children P else none) = none ∧ w' = w) ∨
    (∃ cs, P ∈ w.alive ∧ w.children P = some cs ∧
      (∀ c ∈ L.filter (fun c => c ∈ cs), c ∈ w.alive) ∧
      w'.alive = w.alive ∧ w'.next = w.next ∧
      w'.hasEventSink = w.hasEventSink ∧
      (∀ x, w'.parent x =
        if x ∈ L.filter (fun c => c ∈ cs) then none else w.parent x) ∧
      w'.children P = listOpt (cs.filter (fun c => c ∉ L)) ∧
      (∀ Q, Q ≠ P → w'.children Q = w.children Q) ∧
      w'.events = w.events ++
        (if w.hasEventSink = true
          then (L.filter (fun c => c ∈ cs)).map
            (fun c => HierarchyEvent.childRemoved c P)
          else [])) := by
  unfold remove_children at h
  split at h
  · rename_i cs hcs
    have hP : P ∈ w.alive := by
      by_cases hP : P ∈ w.alive
      · exact hP
      · rw [if_neg hP] at hcs
        exact absurd hcs (by simp)
    rw [if_pos hP] at hcs
    right
    split at h
    · exact absurd h (by simp)
    · rename_i w1 hrpc
      obtain ⟨hS, hal, hnx, hev, hsk, hch, hpar⟩ := remove_parent_components_ok hrpc
      dsimp only at h
      split at h
      · rename_i hP2
        split at h
        · rename_i pcs hpcs
          have hpcs' : pcs = cs := by
            rw [push_events_children, hch, hcs] at hpcs
            exact (Option.some.inj hpcs).symm
          rw [hpcs'] at h
          refine ⟨cs, hP, hcs, hS, ?_, ?_, ?_, ?_, ?_, ?_, ?_⟩
          · split at h <;>
              (simp only [Except.ok.injEq] at h; subst h; simp [hal])
          · split at h <;>
              (simp only [Except.ok.injEq] at h; subst h; simp [hnx])
          · split at h <;>
              (simp only [Except.ok.injEq] at h; subst h; simp [hsk])
          · intro x
            split at h <;>
              (simp only [Except.ok.injEq] at h; subst h;
               simp only [setChildrenComp_parent, push_events_parent];
               exact hpar x)
          · split at h
            · rename_i hemp
              simp only [Except.ok.injEq] at h
              subst h
              rw [List.isEmpty_iff] at hemp
              simp only [setChildrenComp_children, if_pos rfl]
              rw [hemp]
              rfl
            · rename_i hemp
              simp only [Except.ok.injEq] at h
              subst h
              rw [List.isEmpty_iff] at hemp
              simp only [setChildrenComp_children, if_pos rfl]
              rw [listOpt_of_ne_nil hemp]
              simp
          · intro Q hQ
            split at h <;>
              (simp only [Except.ok.injEq] at h; subst h;
               simp only [setChildrenComp_children, if_neg hQ, push_events_children];
               rw [hch])
          · split at h <;>
              (simp only [Except.ok.injEq] at h; subst h;
               simp only [setChildrenComp_events];
               rw [push_events_events, hsk, hev];
               split <;> simp)
        · rename_i hpcs
          have : w1.children P = w.children P := by rw [hch]
          rw [show (push_events w1 _).children = w1.children from
              push_events_children w1 _, this, hcs] at hpcs
          exact absurd hpcs (by simp)
      · rename_i hP2
        rw [show (push_events w1 _).alive = w1.alive from push_events_alive w1 _,
          hal] at hP2
        exact absurd hP hP2
  · rename_i hcs
    left
    simp only [Except.ok.injEq] at h
    exact ⟨hcs, h.symm⟩

theorem filter_not_mem_eq_self {l S : List Entity} (h : ∀ x ∈ l, x ∉ S) :
    l.filter (fun x => x ∉ S) = l := by
  apply List.filter_eq_self.mpr
  intro a ha
  simpa using h a ha

theorem filter_not_mem_self_nil (cs : List Entity) :
    cs.filter (fun x => x ∉ cs) = [] := by
  apply List.filter_eq_nil_iff.mpr
  intro a ha
  simpa using ha

theorem hierInv_remove_children {w w' : World} {P : Entity} {L : List Entity}
    (hI : HierInv w) (h : remove_children P L w = .ok w') : HierInv w' := by
  rcases remove_children_ok_inv h with ⟨_, hw'⟩ |
    ⟨cs, hP, hcs, _, hal, _, _, hpar, hchP, hchQ, _⟩
  · subst hw'
    exact hI
  · have hccs : childrenOf w P = cs := by
      unfold childrenOf
      rw [hcs]
      rfl
    refine hierInv_of_remove (S := L.filter (fun c => c ∈ cs)) hI hal hpar ?_
    intro Q
    by_cases hQ : Q = P
    · rw [hQ, hchP, hccs]
      congr 1
      apply List.filter_congr
      intro x hx
      rw [decide_eq_decide]
      constructor
      · intro hxL hxf
        exact hxL (List.mem_filter.mp hxf).1
      · intro hxf hxL
        exact hxf (List.mem_filter.mpr ⟨hxL, by simpa using hx⟩)
    · rw [hchQ Q hQ]
      have hnm : ∀ x ∈ childrenOf w Q, x ∉ L.filter (fun c => c ∈ cs) := by
        intro x hx hxf
        have hxcs : x ∈ cs := by simpa using (List.mem_filter.mp hxf).2
        have hxP : w.parent x = some P := (hI.1 P x).mp (by rw [hccs]; exact hxcs)
        have hxQ : w.parent x = some Q := (hI.1 Q x).mp hx
        rw [hxP] at hxQ
        exact hQ (Option.some.inj hxQ).symm
      rw [filter_not_mem_eq_self hnm, ← hI.children_eq_listOpt]

theorem clear_children_ok_inv {w w' : World} {P : Entity}
    (h : clear_children w P = .ok w') :
    P ∈ w.alive ∧
    ((w.children P = none ∧ w' = w) ∨
     (∃ cs, w.children P = some cs ∧ (∀ c ∈ cs, c ∈ w.alive) ∧
       w'.alive = w.alive ∧ w'.next = w.next ∧ w'.events = w.events ∧
       w'.hasEventSink = w.hasEventSink ∧
       w'.children P = none ∧ (∀ Q, Q ≠ P → w'.children Q = w.children Q) ∧
       (∀ x, w'.parent x = if x ∈ cs then none else w.parent x))) := by
  unfold clear_children at h
  split at h
  · rename_i hP
    refine ⟨hP, ?_⟩
    split at h
    · rename_i cs hcs
      right
      obtain ⟨hS, hal, hnx, hev, hsk, hch, hpar⟩ := remove_parent_components_ok h
      refine ⟨cs, hcs, ?_, by simpa using hal, by simpa using hnx,
        by simpa using hev, by simpa using hsk, ?_, ?_, ?_⟩
      · intro c hc
        simpa using hS c hc
      · have := congrFun hch P
        rw [this]
        simp
      · intro Q hQ
        have := congrFun hch Q
        rw [this]
        simp [hQ]
      · intro x
        rw [hpar x]
        rfl
    · rename_i hcs
      left
      simp only [Except.ok.injEq] at h
      exact ⟨hcs, h.symm⟩
  · exact absurd h (by simp)

theorem hierInv_clear_children {w w' : World} {P : Entity}
    (hI : HierInv w) (h : clear_children w P = .ok w') : HierInv w' := by
  obtain ⟨hP, hcase⟩ := clear_children_ok_inv h
  rcases hcase with ⟨_, hw'⟩ | ⟨cs, hcs, _, hal, _, _, _, hchP, hchQ, hpar⟩
  · subst hw'
    exact hI
  · have hccs : childrenOf w P = cs := by
      unfold childrenOf
      rw [hcs]
      rfl
  
    refine hierInv_of_remove (S := cs) hI hal hpar ?_
    intro Q
    by_cases hQ : Q = P
    · rw [hQ, hchP, hccs, filter_not_mem_self_nil]
      rfl
    · rw [hchQ Q hQ]
      have hnm : ∀ x ∈ childrenOf w Q, x ∉ cs := by
        intro x hx hxcs
        have hxP : w.parent x = some P := (hI.1 P x).mp (by rw [hccs]; exact hxcs)
        have hxQ : w.parent x = some Q := (hI.1 Q x).mp hx
        rw [hxP] at hxQ
        exact hQ (Option.some.inj hxQ).symm
      rw [filter_not_mem_eq_self hnm, ← hI.children_eq_listOpt]

theorem remove_parent_ok_inv {w w' : World} {C : Entity}
    (h : remove_parent w C = .ok w') :
    C ∈ w.alive ∧
    ((w.parent C = none ∧ w' = w) ∨
     (∃ Q, w.parent C = some Q ∧
       w' = push_events (remove_from_children (w.setParentComp C none) Q C)
         [.childRemoved C Q])) := by
  unfold remove_parent at h
  split at h
  · rename_i hC
    refine ⟨hC, ?_⟩
    split at h
    · rename_i Q hpc
      right
      simp only [Except.ok.injEq] at h
      exact ⟨Q, hpc, h.symm⟩
    · rename_i hpc
      left
      simp only [Except.ok.injEq] at h
      exact ⟨hpc, h.symm⟩
  · exact absurd h (by simp)

theorem hierInv_remove_parent {w w' : World} {C : Entity}
    (hI : HierInv w) (h : remove_parent w C = .ok w') : HierInv w' := by
  obtain ⟨hC, hcase⟩ := remove_parent_ok_inv h
  rcases hcase with ⟨_, hw'⟩ | ⟨Q, hpc, hw'⟩
  · subst hw'
    exact hI
  · have hQal : Q ∈ w.alive := hI.parent_alive hpc
    subst hw'
    refine hierInv_of_remove (S := [C]) hI (by simp) ?_ ?_
    · intro x
      simp only [push_events_parent, remove_from_children_parent,
        setParentComp_parent, List.mem_singleton]
    · intro X
      simp only [push_events_children]
      by_cases hX : X = Q
      · rw [hX, remove_from_children_children_self C (by simpa using hQal)]
        have : childrenOf (w.setParentComp C none) Q = childrenOf w Q := rfl
        rw [this, filter_ne_eq_filter_not_mem_singleton]
      · rw [remove_from_children_children_other C hX]
        simp only [setParentComp_children]
        have hnm : ∀ x ∈ childrenOf w X, x ∉ ([C] : List Entity) := by
          intro x hx hxC
          rw [List.mem_singleton] at hxC
          subst hxC
          have hxX : w.parent x = some X := (hI.1 X x).mp hx
          rw [hpc] at hxX
          exact hX (Option.some.inj hxX).symm
        rw [filter_not_mem_eq_self hnm, ← hI.children_eq_listOpt]

theorem set_parent_ok_inv {w w' : World} {C P : Entity}
    (h : set_parent w C P = .ok w') :
    C ∈ w.alive ∧ P ∈ w.alive ∧ add_child w P C = .ok w' := by
  unfold set_parent at h
  split at h
  · split at h
    · exact ⟨‹_›, ‹_›, h⟩
    · exact absurd h (by simp)
  · exact absurd h (by simp)

theorem replace_children_ok_inv {w w' : World} {P : Entity} {L : List Entity}
    (h : replace_children w P L = .ok w') :
    ∃ w₁, clear_children w P = .ok w₁ ∧ add_children w₁ P L = .ok w' := by
  unfold replace_children at h
  split at h
  · exact absurd h (by simp)
  · rename_i w₁ heq
    exact ⟨w₁, heq, h⟩

/-! ## Concrete worlds used by witnesses and counterexamples -/

/-- A small world: four entities, no relationships, event sink registered. -/
def w0 : World :=
  { alive := [0, 1, 2, 3], next := 4, parent := fun _ => none,
    children := fun _ => none, events := [], hasEventSink := true }

theorem hierInv_w0 : HierInv w0 := by
  refine ⟨?_, ?_, ?_⟩
  · intro P C
    simp [childrenOf, w0]
  · intro P
    simp [w0]
  · intro e _
    simp [w0]

/-- A single-entity world with no relationships. -/
def wc1 : World :=
  { alive := [0], next := 1, parent := fun _ => none,
    children := fun _ => none, events := [], hasEventSink := true }

theorem hierInv_wc1 : HierInv wc1 := by
  refine ⟨?_, ?_, ?_⟩
  · intro P C
    simp [childrenOf, wc1]
  · intro P
    simp [wc1]
  · intro e _
    simp [wc1]

/-- C1: for every world satisfying the hierarchy invariant, every completing
public operation preserves the bidirectional agreement and the
present-implies-nonempty property — EXCEPT `insert_children` called with an
empty children list on a parent that has no `Children` component, which
completes while inserting an empty `Children` component.  This theorem is the
amended claim: invariant preservation for all completions outside that one
excluded case. -/
theorem C1_invariant_preservation :
    ∀ (w : World) (op : Op) (w' : World), HierInv w →
      (∀ p i, op = Op.insert_children p i [] → w.children p ≠ none) →
      applyOp w op = .ok w' → HierInv w' := by
  intro w op w' hI hguard h
  cases op with
  | add_child p c => exact hierInv_add_child hI h
  | add_children p cs => exact hierInv_add_children hI h
  | insert_children p i cs =>
    refine hierInv_insert_children hI ?_ h
    intro hnil
    exact hguard p i (by rw [hnil])
  | remove_children p cs =>
    simp only [applyOp] at h
    split at h
    · exact hierInv_remove_children hI h
    · exact absurd h (by simp)
  | replace_children p cs =>
    obtain ⟨w₁, hclear, hadd⟩ := replace_children_ok_inv h
    exact hierInv_add_children (hierInv_clear_children hI hclear) hadd
  | clear_children p => exact hierInv_clear_children hI h
  | set_parent c p =>
    obtain ⟨_, _, hac⟩ := set_parent_ok_inv h
    exact hierInv_add_child hI hac
  | remove_parent c => exact hierInv_remove_parent hI h

/-- Witness for C1: the invariant holds in the concrete world `w0` and is
preserved by the concrete operation `add_child 0 1`. -/
theorem C1_invariant_preservation_witness :
    HierInv w0 ∧ HierInv (resWorld (applyOp w0 (.add_child 0 1))) := by
  refine ⟨hierInv_w0, ?_⟩
  have hr : applyOp w0 (.add_child 0 1) =
      .ok (resWorld (applyOp w0 (.add_child 0 1))) := rfl
  exact C1_invariant_preservation w0 (.add_child 0 1) _ hierInv_w0
    (fun p i hop => Op.noConfusion hop) hr

/-- Counterexample to C1 as stated: in the invariant-satisfying world `wc1`,
`insert_children 0 0 []` (empty children list, parent without a `Children`
component) completes, yet the resulting world has `children 0 = some []` — a
present-but-empty `Children` component, violating the invariant. -/
theorem C1_empty_children_counterexample :
    HierInv wc1 ∧
    isOkE (applyOp wc1 (.insert_children 0 0 [])) = true ∧
    (resWorld (applyOp wc1 (.insert_children 0 0 []))).children 0 = some [] ∧
    ¬ HierInv (resWorld (applyOp wc1 (.insert_children 0 0 []))) := by
  refine ⟨hierInv_wc1, rfl, rfl, ?_⟩
  intro hI
  exact hI.2.1 0 rfl

/-- Construction form of `add_child`: given the parent alive, no
self-reference, and the result of `update_old_parent`, the final world
dedup-appends the child into the parent's `Children`. -/
theorem add_child_eq {w : World} {P C : Entity} (hP : P ∈ w.alive) (hCP : C ≠ P)
    {w₂ : World} (huop : update_old_parent w C P = .ok w₂) :
    add_child w P C = .ok (w₂.setChildrenComp P
      (some ((childrenOf w₂ P).filter (fun v => v ≠ C) ++ [C]))) := by
  unfold add_child
  rw [if_pos hP, if_neg hCP, huop]
  cases hcb : w₂.children P with
  | some cs =>
    dsimp only
    unfold childrenOf
    rw [hcb]
    rfl
  | none =>
    dsimp only
    unfold childrenOf
    rw [hcb]
    rfl

/-- World with one parent (entity 0) holding a single child (entity 1). -/
def wc2 : World :=
  { alive := [0, 1], next := 2,
    parent := fun c => if c = 1 then some 0 else none,
    children := fun c => if c = 0 then some [1] else none,
    events := [], hasEventSink := true }

/-- C2 (amended): the self-referencing calls `add_child(x,x)`,
`set_parent(x,x)`, `add_children(x,L)` and `insert_children(x,i,L)` with
`x ∈ L` all fail fatally with the world unchanged (the panic-time world is
exactly the input world); `replace_children(x,L)` with `x ∈ L` also fails
fatally, but only after its `clear_children` phase has completed — the
panic-time world is the cleared world, not the original. -/
theorem C2_self_reference_rejection :
    ∀ (w w₁ : World) (x : Entity) (L : List Entity) (i : Nat),
      x ∈ w.alive → x ∈ L → clear_children w x = .ok w₁ →
      add_child w x x = .error ("Cannot add entity as a child of itself.", w) ∧
      set_parent w x x = .error ("Cannot add entity as a child of itself.", w) ∧
      add_children w x L =
        .error ("Cannot push entity as a child of itself.", w) ∧
      insert_children w x i L =
        .error ("Cannot insert entity as a child of itself.", w) ∧
      replace_children w x L =
        .error ("Cannot push entity as a child of itself.", w₁) := by
  intro w w₁ x L i hx hxL hclear
  have hLne : ¬L.isEmpty = true := by
    rw [List.isEmpty_iff]
    intro hnil
    rw [hnil] at hxL
    exact absurd hxL (List.not_mem_nil x)
  have hx1 : x ∈ w₁.alive := by
    obtain ⟨_, hcase⟩ := clear_children_ok_inv hclear
    rcases hcase with ⟨_, hw⟩ | ⟨cs, _, _, hal, _⟩
    · rw [hw]
      exact hx
    · rw [hal]
      exact hx
  refine ⟨?_, ?_, ?_, ?_, ?_⟩
  · unfold add_child
    rw [if_pos hx, if_pos rfl]
  · unfold set_parent
    rw [if_pos hx, if_pos hx]
    unfold add_child
    rw [if_pos hx, if_pos rfl]
  · unfold add_children
    rw [if_pos hx, if_neg hLne, if_pos hxL]
  · unfold insert_children
    rw [if_pos hx, if_pos hxL]
  · unfold replace_children
    rw [hclear]
    show add_children w₁ x L = _
    unfold add_children
    rw [if_pos hx1, if_neg hLne, if_pos hxL]

/-- Witness for C2 at the concrete world `wc1`, entity 0 and list `[0]`. -/
theorem C2_self_reference_rejection_witness :
    (0 : Entity) ∈ wc1.alive ∧ (0 : Entity) ∈ [(0 : Entity)] ∧
    clear_children wc1 0 = .ok wc1 ∧
    add_child wc1 0 0 =
      .error ("Cannot add entity as a child of itself.", wc1) := by
  refine ⟨by decide, by decide, rfl, ?_⟩
  exact (C2_self_reference_rejection wc1 wc1 0 [0] 0 (by decide) (by decide)
    rfl).1

/-- Counterexample to C2 as stated: in `wc2` (entity 0 has child 1),
`replace_children 0 [0]` fails fatally, but the panic-time world is NOT the
original world: child 1's `Parent` link has already been removed by the
`clear_children` phase.  So "the failure occurs before any field is touched"
is false for `replaceChildren`. -/
theorem C2_replace_children_counterexample :
    wc2.parent 1 = some 0 ∧
    isOkE (replace_children wc2 0 [0]) = false ∧
    (resWorld (replace_children wc2 0 [0])).parent 1 = none ∧
    (resWorld (replace_children wc2 0 [0])).children 0 = none := by
  refine ⟨rfl, rfl, rfl, rfl⟩

/-- C3: move semantics.  Given `parent(C) = A` with `A ≠ B` and `C ≠ B` (all
alive, event sink registered), `add_child B C` completes with `parent(C) = B`,
`C` filtered out of `A`'s `Children` (the component deleted if `C` was its
only child — the canonical `listOpt` form), `C` appended at the end of `B`'s
`Children`, and exactly one `ChildMoved C A B` notification emitted. -/
theorem C3_move_semantics :
    ∀ (w : World) (A B C : Entity), C ∈ w.alive → B ∈ w.alive → A ∈ w.alive →
      w.parent C = some A → A ≠ B → C ≠ B → w.hasEventSink = true →
      ∃ w', add_child w B C = .ok w' ∧
        w'.parent C = some B ∧
        w'.children A = listOpt ((childrenOf w A).filter (fun x => x ≠ C)) ∧
        C ∉ childrenOf w' A ∧
        w'.children B =
          some ((childrenOf w B).filter (fun x => x ≠ C) ++ [C]) ∧
        w'.events = w.events ++ [.childMoved C A B] := by
  intro w A B C hC hB hA hpc hAB hCB hsink
  have huop : update_old_parent w C B =
      .ok (push_events (remove_from_children (w.setParentComp C (some B)) A C)
        [.childMoved C A B]) := by
    unfold update_old_parent
    rw [update_parent_eq B hC, hpc]
    dsimp only
    rw [if_neg hAB]
  set w₂ := push_events (remove_from_children (w.setParentComp C (some B)) A C)
    [HierarchyEvent.childMoved C A B] with hw₂
  have hac := add_child_eq hB hCB huop
  set w' := w₂.setChildrenComp B
    (some ((childrenOf w₂ B).filter (fun v => v ≠ C) ++ [C])) with hw'
  have hchA : w'.children A = listOpt ((childrenOf w A).filter (fun x => x ≠ C)) := by
    rw [hw', hw₂]
    simp only [setChildrenComp_children, push_events_children]
    rw [if_neg hAB, remove_from_children_children_self C (by simpa using hA)]
    rfl
  have hcb : childrenOf w₂ B = childrenOf w B := by
    unfold childrenOf
    rw [hw₂]
    simp only [push_events_children]
    rw [remove_from_children_children_other C (Ne.symm hAB)]
    rfl
  refine ⟨w', hac, ?_, hchA, ?_, ?_, ?_⟩
  · rw [hw', hw₂]
    simp
  · rw [childrenOf_of_children_eq hchA]
    intro hmem
    simp [List.mem_filter] at hmem
  · rw [hw']
    simp only [setChildrenComp_children, if_pos rfl]
    rw [hcb]
    simp
  · rw [hw', hw₂]
    simp only [setChildrenComp_events]
    rw [push_events_events_of_sink _ _ (by simp [hsink])]
    simp

/-- Witness for C3: in `wc3` (entity 0 is the parent of entity 2), moving 2
under entity 1. -/
def wc3 : World :=
  { alive := [0, 1, 2], next := 3,
    parent := fun c => if c = 2 then some 0 else none,
    children := fun c => if c = 0 then some [2] else none,
    events := [], hasEventSink := true }

theorem C3_move_semantics_witness :
    (2 : Entity) ∈ wc3.alive ∧ (1 : Entity) ∈ wc3.alive ∧
    (0 : Entity) ∈ wc3.alive ∧ wc3.parent 2 = some 0 ∧
    (0 : Entity) ≠ 1 ∧ (2 : Entity) ≠ 1 ∧ wc3.hasEventSink = true ∧
    ∃ w', add_child wc3 1 2 = .ok w' ∧
      w'.parent 2 = some 1 ∧
      w'.children 0 = listOpt ((childrenOf wc3 0).filter (fun x => x ≠ 2)) ∧
      (2 : Entity) ∉ childrenOf w' 0 ∧
      w'.children 1 =
        some ((childrenOf wc3 1).filter (fun x => x ≠ 2) ++ [2]) ∧
      w'.events = wc3.events ++ [.childMoved 2 0 1] := by
  refine ⟨by decide, by decide, by decide, rfl, by decide, by decide, rfl, ?_⟩
  exact C3_move_semantics wc3 0 1 2 (by decide) (by decide) (by decide) rfl
    (by decide) (by decide) rfl

/-- Construction form of `add_children` for a successful reparent phase. -/
theorem add_children_eq {w w₂ : World} {P : Entity} {L : List Entity}
    (hP : P ∈ w.alive) (hLne : ¬L.isEmpty = true) (hPL : P ∉ L)
    (huop : update_old_parents w P L = .ok w₂) :
    add_children w P L = .ok (w₂.setChildrenComp P
      (some ((childrenOf w₂ P).filter (fun v => v ∉ L) ++ L))) := by
  unfold add_children
  rw [if_pos hP, if_neg hLne, if_neg hPL, huop]
  cases hcb : w₂.children P with
  | some cs =>
    dsimp only
    unfold childrenOf
    rw [hcb]
    rfl
  | none =>
    dsimp only
    unfold childrenOf
    rw [hcb]
    rfl

/-- `update_old_parents` over a singleton whose parent link already points at
`P`: only the (idempotent) parent write happens and no event is recorded. -/
theorem update_old_parents_singleton_already {w : World} {P C : Entity}
    (hC : C ∈ w.alive) (hpc : w.parent C = some P) :
    update_old_parents w P [C] =
      .ok (push_events (w.setParentComp C (some P)) []) := by
  have hloop : update_old_parents_loop P w [C] [] =
      .ok (w.setParentComp C (some P), []) := by
    unfold update_old_parents_loop
    rw [update_parent_eq P hC, hpc]
    dsimp only
    rw [if_pos rfl]
    rfl
  unfold update_old_parents
  rw [hloop]

/-- `update_old_parents` over a singleton moving away from previous parent
`Q ≠ P`. -/
theorem update_old_parents_singleton_moved {w : World} {P C Q : Entity}
    (hC : C ∈ w.alive) (hpc : w.parent C = some Q) (hQP : P ≠ Q) :
    update_old_parents w P [C] =
      .ok (push_events (remove_from_children (w.setParentComp C (some P)) Q C)
        [.childMoved C Q P]) := by
  have hloop : update_old_parents_loop P w [C] [] =
      .ok (remove_from_children (w.setParentComp C (some P)) Q C,
        [.childMoved C Q P]) := by
    unfold update_old_parents_loop
    rw [update_parent_eq P hC, hpc]
    dsimp only
    rw [if_neg hQP]
    rfl
  unfold update_old_parents
  rw [hloop]

/-- `update_old_parents` over a singleton orphan. -/
theorem update_old_parents_singleton_added {w : World} {P C : Entity}
    (hC : C ∈ w.alive) (hpc : w.parent C = none) :
    update_old_parents w P [C] =
      .ok (push_events (w.setParentComp C (some P)) [.childAdded C P]) := by
  have hloop : update_old_parents_loop P w [C] [] =
      .ok (w.setParentComp C (some P), [.childAdded C P]) := by
    unfold update_old_parents_loop
    rw [update_parent_eq P hC, hpc]
    rfl
  unfold update_old_parents
  rw [hloop]

/-- C4: idempotent append.  For a parent with no `Children` component,
`add_children P [C]` called twice leaves `children P = [C]` with no
duplicate, and the second call emits no notification (the previous parent
already equals the new parent, so no event is recorded and the pushed batch
is empty). -/
theorem C4_idempotent_append :
    ∀ (w : World) (P C : Entity), P ∈ w.alive → C ∈ w.alive → C ≠ P →
      w.children P = none →
      ∃ w1 w2, add_children w P [C] = .ok w1 ∧ add_children w1 P [C] = .ok w2 ∧
        w1.children P = some [C] ∧ w2.children P = some [C] ∧
        w2.events = w1.events := by
  intro w P C hP hC hCP hchP
  have hLne : ¬([C] : List Entity).isEmpty = true := by simp
  have hPL : P ∉ ([C] : List Entity) := by simp [Ne.symm hCP]
  -- First call: whatever C's previous parent was, the parent write lands and
  -- P's (absent) Children component is untouched by the reparent phase.
  have hfirst : ∃ w₂, update_old_parents w P [C] = .ok w₂ ∧
      w₂.children P = none ∧ w₂.parent C = some P ∧
      w₂.alive = w.alive := by
    cases hpc : w.parent C with
    | none =>
      refine ⟨_, update_old_parents_singleton_added hC hpc, ?_, ?_, ?_⟩
      · simp [hchP]
      · simp
      · simp
    | some Q =>
      by_cases hQP : P = Q
      · refine ⟨_, update_old_parents_singleton_already hC (by rw [hpc, hQP]),
          ?_, ?_, ?_⟩
        · simp [hchP]
        · simp
        · simp
      · refine ⟨_, update_old_parents_singleton_moved hC hpc hQP, ?_, ?_, ?_⟩
        · simp only [push_events_children]
          rw [remove_from_children_children_other C hQP]
          simp [hchP]
        · simp
        · simp
  obtain ⟨w₂, huop1, hw₂ch, hw₂pc, hw₂al⟩ := hfirst
  have hac1 := add_children_eq hP hLne hPL huop1
  have hcc1 : childrenOf w₂ P = [] := by
    unfold childrenOf
    rw [hw₂ch]
    rfl
  rw [hcc1] at hac1
  simp only [List.filter_nil, List.nil_append] at hac1
  set w1 := w₂.setChildrenComp P (some [C]) with hw1
  have hP1 : P ∈ w1.alive := by
    rw [hw1]
    simp [hw₂al, hP]
  have hC1 : C ∈ w1.alive := by
    rw [hw1]
    simp [hw₂al, hC]
  have hpc1 : w1.parent C = some P := by
    rw [hw1]
    simp [hw₂pc]
  have huop2 := update_old_parents_singleton_already hC1 hpc1
  have hac2 := add_children_eq hP1 hLne hPL huop2
  have hcc2 : childrenOf (push_events (w1.setParentComp C (some P)) []) P
      = [C] := by
    unfold childrenOf
    rw [hw1]
    simp
  rw [hcc2] at hac2
  have hfil : (([C] : List Entity).filter (fun v => v ∉ ([C] : List Entity)))
      = [] := filter_not_mem_self_nil [C]
  rw [hfil] at hac2
  refine ⟨w1, _, hac1, hac2, ?_, ?_, ?_⟩
  · rw [hw1]
    simp
  · simp
  · simp only [setChildrenComp_events, push_events_nil_events,
      setParentComp_events]

/-- C5: reordering on re-add.  Given `children P = [A, B]` with
`parent A = P`, `add_children P [A]` yields `children P = [B, A]` — the
already-present child moves to the end of sibling order — and no
notification is emitted. -/
theorem C5_reorder_on_re_add :
    ∀ (w : World) (P A B : Entity), P ∈ w.alive → A ∈ w.alive → A ≠ P →
      A ≠ B → w.children P = some [A, B] → w.parent A = some P →
      ∃ w', add_children w P [A] = .ok w' ∧ w'.children P = some [B, A] ∧
        w'.events = w.events := by
  intro w P A B hP hA hAP hAB hch hpc
  have huop := update_old_parents_singleton_already hA hpc
  have hac := add_children_eq hP (by simp) (by simp [Ne.symm hAP]) huop
  have hcc : childrenOf (push_events (w.setParentComp A (some P)) []) P
      = [A, B] := by
    unfold childrenOf
    simp [hch]
  rw [hcc] at hac
  have hfil : (([A, B] : List Entity).filter (fun v => v ∉ ([A] : List Entity)))
      = [B] := by
    simp [List.filter_cons, Ne.symm hAB]
  rw [hfil] at hac
  refine ⟨_, hac, ?_, ?_⟩
  · simp
  · simp only [setChildrenComp_events, push_events_nil_events,
      setParentComp_events]

theorem C4_idempotent_append_witness :
    (0 : Entity) ∈ w0.alive ∧ (1 : Entity) ∈ w0.alive ∧ (1 : Entity) ≠ 0 ∧
    w0.children 0 = none ∧
    ∃ w1 w2, add_children w0 0 [1] = .ok w1 ∧ add_children w1 0 [1] = .ok w2 ∧
      w1.children 0 = some [1] ∧ w2.children 0 = some [1] ∧
      w2.events = w1.events := by
  refine ⟨by decide, by decide, by decide, rfl, ?_⟩
  exact C4_idempotent_append w0 0 1 (by decide) (by decide) (by decide) rfl

/-- World with `children 0 = [1, 2]`, both children linked to 0. -/
def wc5 : World :=
  { alive := [0, 1, 2], next := 3,
    parent := fun c => if c = 1 then some 0 else if c = 2 then some 0 else none,
    children := fun c => if c = 0 then some [1, 2] else none,
    events := [], hasEventSink := true }

theorem C5_reorder_on_re_add_witness :
    (0 : Entity) ∈ wc5.alive ∧ (1 : Entity) ∈ wc5.alive ∧
    (1 : Entity) ≠ 0 ∧ (1 : Entity) ≠ 2 ∧
    wc5.children 0 = some [1, 2] ∧ wc5.parent 1 = some 0 ∧
    ∃ w', add_children wc5 0 [1] = .ok w' ∧ w'.children 0 = some [2, 1] ∧
      w'.events = wc5.events := by
  refine ⟨by decide, by decide, by decide, by decide, rfl, rfl, ?_⟩
  exact C5_reorder_on_re_add wc5 0 1 2 (by decide) (by decide) (by decide)
    (by decide) rfl rfl

theorem remove_children_total {w : World} {P : Entity} {L : List Entity}
    (hP : P ∈ w.alive) {cs : List Entity} (hcs : w.children P = some cs)
    (hS : ∀ c ∈ L, c ∈ cs → c ∈ w.alive) :
    ∃ w', remove_children P L w = .ok w' := by
  unfold remove_children
  rw [if_pos hP, hcs]
  dsimp only
  obtain ⟨w1, hw1⟩ := remove_parent_components_total
    (S := L.filter (fun c => c ∈ cs)) (w := w) (by
      intro c hc
      have := List.mem_filter.mp hc
      exact hS c this.1 (by simpa using this.2))
  rw [hw1]
  dsimp only
  obtain ⟨_, hal, _, _, _, _, _⟩ := remove_parent_components_ok hw1
  rw [if_pos (by simp only [push_events_alive]; rw [hal]; exact hP)]
  cases hpcs : (push_events w1 (List.map (fun c => HierarchyEvent.childRemoved c P)
      (List.filter (fun c => decide (c ∈ cs)) L))).children P with
  | some pcs =>
    dsimp only
    split
    · exact ⟨_, rfl⟩
    · exact ⟨_, rfl⟩
  | none => exact ⟨_, rfl⟩

/-- C6: batch removal selectivity.  `remove_children P L` removes exactly the
members of `L` present in `children P` before the call: each loses its
`Parent` component, one `ChildRemoved` per present requested child is emitted
in input order, `children P` is filtered to exclude `L` (deleted when it
empties, the `listOpt` form), requested entities not present cause no
mutation and no notification, and other entities' `Children` are untouched. -/
theorem C6_batch_removal_selectivity :
    ∀ (w : World) (P : Entity) (L cs : List Entity),
      P ∈ w.alive → w.children P = some cs →
      (∀ c ∈ L, c ∈ cs → c ∈ w.alive) → w.hasEventSink = true →
      ∃ w', remove_children P L w = .ok w' ∧
        w'.children P = listOpt (cs.filter (fun c => c ∉ L)) ∧
        (∀ c ∈ L, c ∈ cs → w'.parent c = none) ∧
        (∀ e, (e ∉ L ∨ e ∉ cs) → w'.parent e = w.parent e) ∧
        (∀ Q, Q ≠ P → w'.children Q = w.children Q) ∧
        w'.events = w.events ++
          (L.filter (fun c => c ∈ cs)).map
            (fun c => HierarchyEvent.childRemoved c P) := by
  intro w P L cs hP hcs hS hsink
  obtain ⟨w', hok⟩ := remove_children_total hP hcs hS
  rcases remove_children_ok_inv hok with ⟨hnone, _⟩ |
    ⟨cs', hP', hcs', _, _, _, _, hpar, hchP, hchQ, hev⟩
  · rw [if_pos hP, hcs] at hnone
    exact absurd hnone (by simp)
  · have hcseq : cs' = cs := by
      rw [hcs] at hcs'
      exact (Option.some.inj hcs').symm
    subst hcseq
    refine ⟨w', hok, hchP, ?_, ?_, hchQ, ?_⟩
    · intro c hcL hccs
      rw [hpar c, if_pos (List.mem_filter.mpr ⟨hcL, by simpa using hccs⟩)]
    · intro e he
      rw [hpar e]
      rw [if_neg (by
        intro hmem
        have hm := List.mem_filter.mp hmem
        rcases he with he | he
        · exact he hm.1
        · exact he (by simpa using hm.2))]
    · rw [hev, if_pos hsink]

theorem C6_batch_removal_selectivity_witness :
    (0 : Entity) ∈ wc5.alive ∧ wc5.children 0 = some [1, 2] ∧
    (∀ c ∈ ([2, 3] : List Entity), c ∈ ([1, 2] : List Entity) →
      c ∈ wc5.alive) ∧
    wc5.hasEventSink = true ∧
    ∃ w', remove_children 0 [2, 3] wc5 = .ok w' ∧
      w'.children 0 = listOpt (([1, 2] : List Entity).filter
        (fun c => c ∉ ([2, 3] : List Entity))) ∧
      w'.events = wc5.events ++
        (([2, 3] : List Entity).filter (fun c => c ∈ ([1, 2] : List Entity))).map
          (fun c => HierarchyEvent.childRemoved c 0) := by
  refine ⟨by decide, rfl, by decide, rfl, ?_⟩
  obtain ⟨w', h1, h2, _, _, _, h6⟩ := C6_batch_removal_selectivity wc5 0 [2, 3]
    [1, 2] (by decide) rfl (by decide) rfl
  exact ⟨w', h1, h2, h6⟩

theorem clear_children_total {w : World} {P : Entity} (hP : P ∈ w.alive)
    (hall : ∀ c ∈ childrenOf w P, c ∈ w.alive) :
    ∃ w', clear_children w P = .ok w' := by
  unfold clear_children
  rw [if_pos hP]
  cases hcs : w.children P with
  | none => exact ⟨w, rfl⟩
  | some cs =>
    dsimp only
    apply remove_parent_components_total
    intro c hc
    simp only [setChildrenComp_alive]
    exact hall c (by unfold childrenOf; rw [hcs]; exact hc)

/-- C7: `clear_children P` removes the `Parent` component from every current
child of `P` and deletes `P`'s `Children` component, while emitting no
notification at all; entities outside `children P` keep their parent links,
other entities' `Children` are untouched, and when `P` has no `Children`
component the whole operation is a no-op. -/
theorem C7_clear_children_no_events :
    ∀ (w : World) (P : Entity), P ∈ w.alive →
      (∀ c ∈ childrenOf w P, c ∈ w.alive) →
      ∃ w', clear_children w P = .ok w' ∧
        w'.children P = none ∧
        (∀ c ∈ childrenOf w P, w'.parent c = none) ∧
        (∀ e, e ∉ childrenOf w P → w'.parent e = w.parent e) ∧
        (∀ Q, Q ≠ P → w'.children Q = w.children Q) ∧
        w'.events = w.events ∧
        (w.children P = none → w' = w) := by
  intro w P hP hall
  obtain ⟨w', hok⟩ := clear_children_total hP hall
  obtain ⟨_, hcase⟩ := clear_children_ok_inv hok
  rcases hcase with ⟨hnone, hw⟩ |
    ⟨cs, hcs, _, _, _, hev, _, hchP, hchQ, hpar⟩
  · refine ⟨w', hok, by rw [hw]; exact hnone, ?_, fun e _ => by rw [hw],
      fun Q _ => by rw [hw], by rw [hw], fun _ => hw⟩
    intro c hc
    unfold childrenOf at hc
    rw [hnone] at hc
    exact absurd hc (List.not_mem_nil c)
  · have hccs : childrenOf w P = cs := by
      unfold childrenOf
      rw [hcs]
      rfl
    refine ⟨w', hok, hchP, ?_, ?_, hchQ, hev, ?_⟩
    · intro c hc
      rw [hpar c, if_pos (hccs ▸ hc)]
    · intro e he
      rw [hccs] at he
      rw [hpar e, if_neg he]
    · intro hnone
      rw [hcs] at hnone
      exact absurd hnone (by simp)

theorem C7_clear_children_no_events_witness :
    (0 : Entity) ∈ wc5.alive ∧
    (∀ c ∈ childrenOf wc5 0, c ∈ wc5.alive) ∧
    ∃ w', clear_children wc5 0 = .ok w' ∧
      w'.children 0 = none ∧
      (∀ c ∈ childrenOf wc5 0, w'.parent c = none) ∧
      w'.events = wc5.events := by
  refine ⟨by decide, by decide, ?_⟩
  obtain ⟨w', h1, h2, h3, _, _, h6, _⟩ := C7_clear_children_no_events wc5 0
    (by decide) (by decide)
  exact ⟨w', h1, h2, h3, h6⟩

@[simp] theorem spawnWithParent_fst_children (w : World) (p : Option Entity) :
    ((w.spawnWithParent p).1).children = w.children := rfl

@[simp] theorem spawnWithParent_fst_parent (w : World) (p : Option Entity)
    (x : Entity) : ((w.spawnWithParent p).1).parent x =
      if x = w.next then p else w.parent x := rfl

@[simp] theorem spawnWithParent_fst_alive (w : World) (p : Option Entity) :
    ((w.spawnWithParent p).1).alive = w.alive ++ [w.next] := rfl

@[simp] theorem spawnWithParent_fst_events (w : World) (p : Option Entity) :
    ((w.spawnWithParent p).1).events = w.events := rfl

@[simp] theorem spawnWithParent_fst_hasEventSink (w : World) (p : Option Entity) :
    ((w.spawnWithParent p).1).hasEventSink = w.hasEventSink := rfl

@[simp] theorem spawnWithParent_snd (w : World) (p : Option Entity) :
    (w.spawnWithParent p).2 = w.next := rfl

/-- C8 (amended): for a parent that HAS a `Children` component, an insertion
index greater than the length of the remaining list (after de-duplication) is
a fatal panic — but it fires only after the reparent phase: at panic time
every incoming child's `Parent` link already points at the new parent, the
notifications are already pushed, and the parent's list is already filtered.
Only the splice itself is aborted. -/
theorem C8_insert_index_out_of_range :
    ∀ (w : World) (P : Entity) (i : Nat) (L cs : List Entity),
      HierInv w → P ∈ w.alive → w.children P = some cs → P ∉ L →
      (∀ c ∈ L, c ∈ w.alive) →
      (cs.filter (fun v => v ∉ L)).length < i →
      ∃ w₂ w', update_old_parents w P L = .ok w₂ ∧
        insert_children w P i L = .error (indexMsg, w') ∧
        w' = w₂.setChildrenComp P (some (cs.filter (fun v => v ∉ L))) ∧
        (∀ c ∈ L, w'.parent c = some P) ∧
        w'.events = w₂.events := by
  intro w P i L cs hI hP hcs hPL hall hlen
  obtain ⟨w₂, huop⟩ := update_old_parents_total hall
  obtain ⟨hal, _, _, _, hpar, hchP, _⟩ := update_old_parents_char hI huop
  have hw2cs : w₂.children P = some cs := by rw [hchP, hcs]
  have herr : insert_children w P i L = .error (indexMsg,
      w₂.setChildrenComp P (some (cs.filter (fun v => v ∉ L)))) := by
    unfold insert_children
    rw [if_pos hP, if_neg hPL, huop]
    dsimp only
    rw [hw2cs]
    dsimp only
    rw [if_neg (not_le.mpr hlen)]
  refine ⟨w₂, _, huop, herr, rfl, ?_, ?_⟩
  · intro c hc
    simp only [setChildrenComp_parent]
    rw [hpar c, if_pos hc]
  · simp

/-- World where entity 0 holds child 1, and entity 2 is free. -/
def wc8 : World :=
  { alive := [0, 1, 2], next := 3,
    parent := fun c => if c = 1 then some 0 else none,
    children := fun c => if c = 0 then some [1] else none,
    events := [], hasEventSink := true }

theorem hierInv_wc8 : HierInv wc8 := by
  refine ⟨?_, ?_, ?_⟩
  · intro P C
    unfold childrenOf
    simp only [wc8]
    by_cases hP : P = 0 <;> by_cases hC : C = 1 <;>
      simp [hP, hC]
    exact fun h => hP h.symm
  · intro P
    simp only [wc8]
    split <;> simp
  · intro e he
    have h0 : e ≠ 0 := fun h => he (h ▸ (by decide : (0:Entity) ∈ wc8.alive))
    have h1 : e ≠ 1 := fun h => he (h ▸ (by decide : (1:Entity) ∈ wc8.alive))
    constructor
    · show (if e = 1 then some 0 else none) = none
      rw [if_neg h1]
    · show (if e = 0 then some [1] else none) = none
      rw [if_neg h0]

theorem C8_insert_index_out_of_range_witness :
    HierInv wc8 ∧ (([1] : List Entity).filter
      (fun v => v ∉ ([2] : List Entity))).length < 5 ∧
    ∃ w₂ w', update_old_parents wc8 0 [2] = .ok w₂ ∧
      insert_children wc8 0 5 [2] = .error (indexMsg, w') ∧
      (∀ c ∈ ([2] : List Entity), w'.parent c = some 0) := by
  refine ⟨hierInv_wc8, by decide, ?_⟩
  obtain ⟨w₂, w', h1, h2, _, h4, _⟩ := C8_insert_index_out_of_range wc8 0 5 [2]
    [1] hierInv_wc8 (by decide) rfl (by decide) (by decide) (by decide)
  exact ⟨w₂, w', h1, h2, h4⟩

/-- Counterexample to C8 as stated: in `wc8`, `insert_children 0 5 [2]` with
the out-of-range index 5 fails — but the failed call HAS touched fields:
entity 2's `Parent` link was `none` before the call and is `some 0` in the
panic-time world, and a `ChildAdded` notification was already pushed. -/
theorem C8_insert_out_of_range_counterexample :
    wc8.parent 2 = none ∧
    isOkE (insert_children wc8 0 5 [2]) = false ∧
    (resWorld (insert_children wc8 0 5 [2])).parent 2 = some 0 ∧
    (resWorld (insert_children wc8 0 5 [2])).events =
      wc8.events ++ [.childAdded 2 0] := by
  refine ⟨rfl, rfl, rfl, rfl⟩

/-- C9 (amended): the tolerance for missing entities is one-sided.  The
positive half, proved here: reparenting a child whose RECORDED PREVIOUS
PARENT has been despawned succeeds — `remove_from_children` uses the
tolerant `get_entity_mut` and skips the dead previous parent — leaving the
child attached to the new parent (and still emitting a `ChildMoved` naming
the dead previous parent).  The negative half (counterexample below): an item
whose child entity no longer exists makes the batch panic via `entity_mut`,
it is NOT skipped. -/
theorem C9_stale_previous_parent :
    ∀ (w : World) (B C Q : Entity), C ∈ w.alive → B ∈ w.alive → Q ∉ w.alive →
      w.parent C = some Q → C ≠ B → w.hasEventSink = true →
      ∃ w', add_child w B C = .ok w' ∧
        w'.parent C = some B ∧
        w'.children B =
          some ((childrenOf w B).filter (fun x => x ≠ C) ++ [C]) ∧
        (∀ X, X ≠ B → w'.children X = w.children X) ∧
        w'.events = w.events ++ [.childMoved C Q B] := by
  intro w B C Q hC hB hQ hpc hCB hsink
  have hQB : Q ≠ B := fun h => hQ (h ▸ hB)
  have huop : update_old_parent w C B =
      .ok (push_events (w.setParentComp C (some B)) [.childMoved C Q B]) := by
    unfold update_old_parent
    rw [update_parent_eq B hC, hpc]
    dsimp only
    rw [if_neg hQB,
      remove_from_children_dead C (by simpa using hQ)]
  have hac := add_child_eq hB hCB huop
  set w₂ := push_events (w.setParentComp C (some B))
    [HierarchyEvent.childMoved C Q B] with hw₂
  have hcb : childrenOf w₂ B = childrenOf w B := by
    unfold childrenOf
    rw [hw₂]
    simp
  refine ⟨_, hac, ?_, ?_, ?_, ?_⟩
  · simp [hw₂]
  · simp only [setChildrenComp_children, if_pos rfl]
    rw [hcb]
    simp
  · intro X hX
    simp only [setChildrenComp_children]
    rw [if_neg hX, hw₂]
    simp
  · simp only [setChildrenComp_events]
    rw [hw₂, push_events_events_of_sink _ _ (by simp [hsink])]
    simp

/-- World where entity 1's recorded parent is the despawned entity 5. -/
def wc9 : World :=
  { alive := [0, 1], next := 2,
    parent := fun c => if c = 1 then some 5 else none,
    children := fun _ => none, events := [], hasEventSink := true }

theorem C9_stale_previous_parent_witness :
    (1 : Entity) ∈ wc9.alive ∧ (0 : Entity) ∈ wc9.alive ∧
    (5 : Entity) ∉ wc9.alive ∧ wc9.parent 1 = some 5 ∧
    ∃ w', add_child wc9 0 1 = .ok w' ∧
      w'.parent 1 = some 0 ∧
      w'.children 0 =
        some ((childrenOf wc9 0).filter (fun x => x ≠ 1) ++ [1]) ∧
      w'.events = wc9.events ++ [.childMoved 1 5 0] := by
  refine ⟨by decide, by decide, by decide, rfl, ?_⟩
  obtain ⟨w', h1, h2, h3, _, h5⟩ := C9_stale_previous_parent wc9 0 1 5
    (by decide) (by decide) (by decide) rfl (by decide) rfl
  exact ⟨w', h1, h2, h3, h5⟩

/-- Counterexample to C9 as stated: a batch item whose CHILD entity does not
exist is not skipped — `add_children 0 [1]` in the single-entity world `wc1`
panics (`entity_mut` on the missing entity 1) instead of treating the item as
a no-op.  The same claim asserts such items are "skipped without error,
without aborting the rest of the batch"; the code aborts. -/
theorem C9_missing_child_counterexample :
    (1 : Entity) ∉ wc1.alive ∧
    add_children wc1 0 [1] = .error (noEntityMsg, wc1) := by
  exact ⟨by decide, rfl⟩

/-- C10: `EntityWorldMut::with_child` and `WorldChildBuilder::spawn` perform
the same structural change — the freshly spawned entity `w.next` gets
`Parent(P)` and is appended at the end of `P`'s `Children` (the component
created if absent) — but `with_child` emits NO notification while `spawn`
emits exactly one `ChildAdded`. -/
theorem C10_with_child_vs_spawn :
    ∀ (w : World) (P : Entity), P ∈ w.alive → w.next ∉ childrenOf w P →
      w.hasEventSink = true →
      (∃ w1, with_child w P = .ok w1 ∧
        w1.parent w.next = some P ∧
        w1.children P = some (childrenOf w P ++ [w.next]) ∧
        w1.events = w.events) ∧
      (∃ w2, WorldChildBuilder.spawn w P = .ok w2 ∧
        w2.parent w.next = some P ∧
        w2.children P = some (childrenOf w P ++ [w.next]) ∧
        w2.events = w.events ++ [.childAdded w.next P]) := by
  intro w P hP hfresh hsink
  constructor
  · have hwc : with_child w P = .ok
        (((w.spawnWithParent (some P)).1).setChildrenComp P
          (some ((childrenOf w P).filter (fun v => v ≠ w.next) ++ [w.next]))) := by
      unfold with_child World.spawnWithParent
      rw [if_pos hP]
      dsimp only
      cases hch : w.children P with
      | some cs =>
        dsimp only
        unfold childrenOf
        rw [hch]
        rfl
      | none =>
        dsimp only
        unfold childrenOf
        rw [hch]
        rfl
    rw [filter_ne_of_not_mem hfresh] at hwc
    refine ⟨_, hwc, ?_, ?_, ?_⟩
    · simp
    · simp
    · simp
  · have hsp : WorldChildBuilder.spawn w P = .ok
        (push_events (((w.spawnWithParent (some P)).1).setChildrenComp P
            (some (childrenOf w P ++ [w.next])))
          [.childAdded w.next P]) := by
      unfold WorldChildBuilder.spawn add_child_unchecked World.spawnWithParent
      dsimp only
      rw [if_pos (List.mem_append.mpr (Or.inl hP))]
      cases hch : w.children P with
      | some cs =>
        dsimp only
        unfold childrenOf
        rw [hch]
        rfl
      | none =>
        dsimp only
        unfold childrenOf
        rw [hch]
        rfl
    refine ⟨_, hsp, ?_, ?_, ?_⟩
    · simp
    · simp
    · simp only [push_events_events, setChildrenComp_events,
        spawnWithParent_fst_events, setChildrenComp_hasEventSink,
        spawnWithParent_fst_hasEventSink, hsink]
      simp

theorem C10_with_child_vs_spawn_witness :
    (0 : Entity) ∈ w0.alive ∧ w0.next ∉ childrenOf w0 0 ∧
    w0.hasEventSink = true ∧
    (∃ w1, with_child w0 0 = .ok w1 ∧
      w1.parent w0.next = some 0 ∧
      w1.children 0 = some (childrenOf w0 0 ++ [w0.next]) ∧
      w1.events = w0.events) ∧
    (∃ w2, WorldChildBuilder.spawn w0 0 = .ok w2 ∧
      w2.parent w0.next = some 0 ∧
      w2.children 0 = some (childrenOf w0 0 ++ [w0.next]) ∧
      w2.events = w0.events ++ [.childAdded w0.next 0]) := by
  refine ⟨by decide, by decide, rfl, ?_⟩
  exact C10_with_child_vs_spawn w0 0 (by decide) (by decide) rfl
